import Mathlib

/-!
# Verification of the tic-tac-toe engine (`src/main.rs`)

Shallow embedding of the Rust program's core: board/rules engine
(`check_winner`, `whos_turn`, `get_next_moves`, `play_move`), the winnability
oracle (`is_winnable`) and the minimax search with alpha-beta pruning
(`minimax_rec`, `minimax`).

Modelling decisions:

* A board (`GameState = [i8; 9]` in the source) is a `List ℤ` of length 9;
  cell values are `X = -1`, `O = 1`, `EMPTY = 0`.  The program only copies and
  compares cells, so `ℤ` is an exact model of `i8` here.
* The source stores search values in `f32`.  Every value the program ever
  computes is one of `-1000.0`, `1000.0`, `0.0`, `1.0/level`, `-1.0/level`
  (`level ≤ 9`), and the only operations on values are comparisons; the
  IEEE rounding of `1/level` to `f32` is strictly monotone and injective on
  this finite set, so `f32` comparisons agree with exact rational
  comparisons.  We model a value as an exact fraction `Val` (numerator,
  denominator) compared by cross-multiplication — this keeps every
  comparison kernel-computable — and interpret it into `ℚ` (`Val.toQ`) for
  stating specifications.  A denominator of `0` corresponds to the `f32`
  infinities produced by `±1.0/0.0`; no comparison between two values ever
  involves such a value in the executions the claims quantify over.
* `rand::thread_rng` draws one bit per enumerated candidate move.  We model
  the stream of random bits as a tape `t : ℕ → Bool` together with an
  explicit read position that is threaded through every computation, each
  call consuming exactly as many bits as the source draws.  Quantifying
  over all tapes quantifies over every realization of the randomized move
  ordering.
* The recursion of `minimax_rec`/`is_winnable` terminates because each move
  fills an empty cell; we make this explicit with a fuel parameter.  The
  entry points use fuel `10`, which strictly dominates the at most `9`
  plies of any game, so the fuel default branches are unreachable there.
* `check_winner(...).unwrap()` in the base case of `minimax_rec` is modelled
  with `Option.getD _ 0`; the theorem for claim C6 shows the default is
  never taken (the `unwrap` cannot panic).
-/

namespace TTT

/-- Board state: the source's `GameState = [i8; 9]`, as a list of cells. -/
abbrev GameState := List ℤ

/-- `const X: i8 = -1`. -/
def X : ℤ := -1

/-- `const O: i8 = 1`. -/
def O : ℤ := 1

/-- `const EMPTY: i8 = 0`. -/
def EMPTY : ℤ := 0

/-- Exact model of an `f32` search value as a fraction `num / den`.
`den = 0` models the infinities `±1.0/0.0`. -/
structure Val where
  num : ℤ
  den : ℕ
deriving DecidableEq

/-- `const MAX: f32 = 1000.0`. -/
def MAXV : Val := ⟨1000, 1⟩

/-- `const MIN: f32 = -1.0 * MAX`. -/
def MINV : Val := ⟨-1000, 1⟩

/-- Strict `<` on values, by cross-multiplication (exact rational order). -/
def Val.blt (a b : Val) : Bool := a.num * (b.den : ℤ) < b.num * (a.den : ℤ)

/-- `≤` on values, by cross-multiplication. -/
def Val.ble (a b : Val) : Bool := a.num * (b.den : ℤ) ≤ b.num * (a.den : ℤ)

/-- `==` on values (the source compares `f32` values with `==`). -/
def Val.beq (a b : Val) : Bool := a.num * (b.den : ℤ) == b.num * (a.den : ℤ)

/-- The rational number a `Val` denotes. -/
def Val.toQ (a : Val) : ℚ := (a.num : ℚ) / (a.den : ℚ)

/-- The eight `winning_cell_combinations` of `check_winner`, in source
order: rows, then columns, then the two diagonals. -/
def combos : List (ℕ × ℕ × ℕ) :=
  [(0, 1, 2), (3, 4, 5), (6, 7, 8),
   (0, 3, 6), (1, 4, 7), (2, 5, 8),
   (0, 4, 8), (2, 4, 6)]

/-- Inner loop of `check_winner` for one combination: `player` is the first
cell of the line; the line wins if every cell of the line equals `player`
and `player` is not `EMPTY`. -/
def lineWin (s : GameState) (c : ℕ × ℕ × ℕ) : Option ℤ :=
  let player := s.getD c.1 0
  if s.getD c.1 0 = player ∧ s.getD c.2.1 0 = player ∧ s.getD c.2.2 0 = player
      ∧ player ≠ EMPTY then
    some player
  else
    none

/-- `fn check_winner`: first winning line in `combos` order, else `None`
(undetermined) if an empty cell remains, else `Some(EMPTY)` (draw). -/
def check_winner (s : GameState) : Option ℤ :=
  match combos.findSome? (lineWin s) with
  | some w => some w
  | none => if s.any (fun c => c == EMPTY) then none else some EMPTY

/-- Number of non-empty cells (the counter `i` of `whos_turn`). -/
def numFilled (s : GameState) : ℕ := s.countP (fun c => !(c == EMPTY))

/-- Number of empty cells of a state. -/
def numEmpty (s : GameState) : ℕ := s.countP (fun c => c == EMPTY)

/-- `fn whos_turn`: `EMPTY` (no turn) on a full board, else `X` when the
number of occupied cells is even, `O` when odd. -/
def whos_turn (s : GameState) : ℤ :=
  if numFilled s = 9 then EMPTY
  else if numFilled s % 2 = 0 then X
  else O

/-- `fn play_move`: set cell `index` to the current mover's mark, with no
legality check. -/
def play_move (s : GameState) (index : ℕ) : GameState :=
  s.set index (whos_turn s)

/-- Candidate-partitioning loop of `get_next_moves` over the enumerated
cells: each empty cell `i` yields the state with `i` set to `player`,
pushed to partition `a` (bit `false`) or `b` (bit `true`) according to the
next bit of the tape; `k` is the tape read position, advanced once per
empty cell exactly as `rng.gen_range(0..=1)` is called once per empty
cell. -/
def gnmAux (t : ℕ → Bool) (s : GameState) (player : ℤ) :
    List (ℕ × ℤ) → ℕ → List GameState × List GameState
  | [], _ => ([], [])
  | (i, num) :: rest, k =>
    if num = EMPTY then
      let ns := s.set i player
      let p := gnmAux t s player rest (k + 1)
      if t k then (p.1, ns :: p.2) else (ns :: p.1, p.2)
    else
      gnmAux t s player rest k

/-- `fn get_next_moves`: empty for a decided state; otherwise one candidate
per empty cell, in partition `a` order followed by partition `b` order. -/
def get_next_moves (t : ℕ → Bool) (k : ℕ) (s : GameState) : List GameState :=
  if check_winner s ≠ none then []
  else
    let p := gnmAux t s (whos_turn s) s.enum k
    p.1 ++ p.2

/-- Terminal payoff of `minimax_rec`: `1/level` if `winner == player`,
`0.0` if `winner == EMPTY`, else `-1.0/level`. -/
def leafVal (winner player : ℤ) (level : ℕ) : Val :=
  if winner = player then ⟨1, level⟩
  else if winner = EMPTY then ⟨0, 1⟩
  else ⟨-1, level⟩

/-- The number of random bits a call of `get_next_moves` consumes. -/
def bitsUsed (s : GameState) : ℕ :=
  if check_winner s = none then numEmpty s else 0

/-- The child loop of `minimax_rec` (`for child_state in children`):
threads the running `value`, `alpha`/`beta` and the tape position, collects
the evaluated children pushed onto `node.children`, and stops early on an
alpha/beta cutoff exactly as the source `break`s.  `recEval pos c isMax
level a b` evaluates a child.  Returns the final `value`, the pushed
children with their stored values, and the next tape position. -/
def mmLoop (recEval : ℕ → GameState → Bool → ℕ → Val → Val → Val × List (GameState × Val) × ℕ)
    (isMax : Bool) (level : ℕ) :
    List GameState → ℕ → Val → Val → Val → Val × List (GameState × Val) × ℕ
  | [], pos, value, _a, _b => (value, [], pos)
  | c :: rest, pos, value, a, b =>
    let res := recEval pos c (!isMax) (level + 1) a b
    let eval := res.1
    let pos' := res.2.2
    -- value update: `if is_max && eval > value { value = eval } else if
    -- !is_max && eval < value { value = eval }`, split under the same
    -- `is_max` branch as the alpha/beta update that follows it
    if isMax then
      let value' := if Val.blt value eval then eval else value
      let a' := if Val.blt a value' then value' else a
      if Val.ble b value' then (value', [(c, eval)], pos')
      else
        let w := mmLoop recEval isMax level rest pos' value' a' b
        (w.1, (c, eval) :: w.2.1, w.2.2)
    else
      let value' := if Val.blt eval value then eval else value
      let b' := if Val.blt value' b then value' else b
      if Val.ble value' a then (value', [(c, eval)], pos')
      else
        let w := mmLoop recEval isMax level rest pos' value' a b'
        (w.1, (c, eval) :: w.2.1, w.2.2)

/-- `fn minimax_rec`, with fuel (the real recursion terminates because a ply
fills a cell; fuel `10` suffices for any 9-cell board).  Returns the value,
the `node.children` list (each child with its stored value, in push order)
and the next tape position. -/
def minimaxRec (t : ℕ → Bool) (player : ℤ) :
    ℕ → ℕ → GameState → Bool → ℕ → Val → Val → Val × List (GameState × Val) × ℕ
  | 0, pos, _s, _isMax, _level, _a, _b => (⟨0, 1⟩, [], pos)
  | fuel + 1, pos, s, isMax, level, a, b =>
    let children := get_next_moves t pos s
    if children.isEmpty then
      (leafVal ((check_winner s).getD 0) player level, [], pos)
    else
      let value := if isMax then MINV else MAXV
      mmLoop (minimaxRec t player fuel) isMax level children
        (pos + bitsUsed s) value a b

/-- `fn minimax`: evaluate the root maximizing at depth 0 with the sentinel
window, then return the first root child whose stored value equals the
root value. -/
def minimax (t : ℕ → Bool) (s : GameState) : Option GameState :=
  let player := whos_turn s
  let res := minimaxRec t player 10 0 s true 0 MINV MAXV
  match res.2.1.find? (fun c => Val.beq c.2 res.1) with
  | some c => some c.1
  | none => none

/-- The child loop of `is_winnable` (`for child in children`), threading the
tape position and stopping at the first winnable child. -/
def iwLoop (recW : ℕ → GameState → Bool × ℕ) :
    List GameState → ℕ → Bool × ℕ
  | [], pos => (false, pos)
  | c :: rest, pos =>
    let r := recW pos c
    if r.1 then (true, r.2) else iwLoop recW rest r.2

/-- `fn is_winnable`, with fuel: `true` on a decided non-draw state, `false`
on a state without moves, else whether some child is winnable. -/
def is_winnable (t : ℕ → Bool) : ℕ → ℕ → GameState → Bool × ℕ
  | 0, pos, _s => (false, pos)
  | fuel + 1, pos, s =>
    let winner := check_winner s
    if winner ≠ none ∧ winner ≠ some EMPTY then (true, pos)
    else
      let children := get_next_moves t pos s
      iwLoop (is_winnable t fuel) children (pos + bitsUsed s)

/-- The empty board. -/
def emptyBoard : GameState := List.replicate 9 0

/-- Self-play: repeatedly replace the state by `minimax`'s move (each round
with its own fresh tape `T n`) until `minimax` yields no move (which
happens exactly at terminal states) or the round budget is spent. -/
def selfPlay (T : ℕ → ℕ → Bool) : ℕ → GameState → GameState
  | 0, s => s
  | n + 1, s =>
    match minimax (T n) s with
    | some c => selfPlay T n c
    | none => s

/-- States reachable from the empty board by legal single-cell placements
(the placed mark is the derived mover's, so turns alternate by
construction). -/
inductive Reachable : GameState → Prop
  | empty : Reachable emptyBoard
  | step {s : GameState} (i : ℕ) : Reachable s → i < 9 → s.getD i 0 = EMPTY →
      Reachable (play_move s i)

/-! ## Specification-side definitions

The remaining definitions are not translations of source functions; they
serve to state and prove the claims: the canonical (derandomized) move
list, the plain unpruned minimax value the spec describes, Boolean
certificate checkers for the sign of the game value, an over-approximation
of the call tree of `minimax_rec`, and a canonical winnability checker. -/

/-- The candidate moves of `get_next_moves` in canonical ascending board
order (every randomized output is a permutation of this list). -/
def nextMoves (s : GameState) : List GameState :=
  if check_winner s ≠ none then []
  else (s.enum.filter (fun p => p.2 == 0)).map (fun p => s.set p.1 (whos_turn s))

/-- Modelled from the spec: the terminal payoff of the recursive
evaluation, as a rational — `+1/depth` if the winner is the root mover,
`0` on a draw, `-1/depth` otherwise. -/
def payoffQ (winner player : ℤ) (level : ℕ) : ℚ :=
  if winner = player then 1 / (level : ℚ)
  else if winner = EMPTY then 0
  else -(1 / (level : ℚ))

/-- Modelled from the spec: the plain (unpruned) minimax value of the game
tree below `s`, maximizing for `player` when `isMax`, with the source's
sentinel initializations. -/
def plainValue (player : ℤ) : ℕ → GameState → Bool → ℕ → ℚ
  | 0, _, _, _ => 0
  | fuel + 1, s, isMax, level =>
    let cs := nextMoves s
    if cs.isEmpty then payoffQ ((check_winner s).getD 0) player level
    else
      let vs := cs.map (fun c => plainValue player fuel c (!isMax) (level + 1))
      if isMax then vs.foldl max (-1000) else vs.foldl min 1000

/-- A fixed exploration order for the certificate checkers: center first,
then corners, then edges. -/
def baseOrd : List ℕ := [4, 0, 2, 6, 8, 1, 3, 5, 7]

/-- Cells that complete a line whose other two cells are equal and
non-empty (immediate wins or blocks) — a move-ordering heuristic for the
certificate checkers. -/
def tacCells (s : GameState) : List ℕ :=
  combos.filterMap (fun c =>
    if s.getD c.1 0 == s.getD c.2.1 0 && !(s.getD c.1 0 == 0) then some c.2.2
    else if s.getD c.1 0 == s.getD c.2.2 0 && !(s.getD c.1 0 == 0) then some c.2.1
    else if s.getD c.2.1 0 == s.getD c.2.2 0 && !(s.getD c.2.1 0 == 0) then some c.1
    else none)

/-- The move at cell `i` for mover `m`, if `i` is an empty cell. -/
def mkMove (s : GameState) (m : ℤ) (i : ℕ) : Option GameState :=
  if s.getD i 0 == 0 then some (s.set i m) else none

/-- The candidate moves of `s` in `baseOrd` order, one per empty cell; the
checkers consult it only on undecided states, where it enumerates exactly
the legal moves. -/
def movesA (s : GameState) : List GameState :=
  baseOrd.filterMap (mkMove s (whos_turn s))

/-- Candidate moves of `s` in a tactical-first order, possibly with
duplicates; used only on existential branches of the checkers, where any
sublist of the legal moves is sound. -/
def movesE (s : GameState) : List GameState :=
  (tacCells s ++ baseOrd).filterMap (mkMove s (whos_turn s))

/-- Certificate checker: `true` certifies that the minimax value of `s`
(for `player`, `isMax` to move) is at most `0` — the opponent can avoid
losing. -/
def le0 (player : ℤ) : ℕ → GameState → Bool → Bool
  | 0, _, _ => false
  | fuel + 1, s, isMax =>
    match check_winner s with
    | some w => !(w == player)
    | none =>
      if isMax then (movesA s).all (fun c => le0 player fuel c false)
      else (movesE s).any (fun c => le0 player fuel c true)

/-- Certificate checker: `true` certifies that the minimax value of `s`
(for `player`, `isMax` to move) is at least `0` — `player`'s side can
avoid losing. -/
def ge0 (player : ℤ) : ℕ → GameState → Bool → Bool
  | 0, _, _ => false
  | fuel + 1, s, isMax =>
    match check_winner s with
    | some w => (w == player) || (w == 0)
    | none =>
      if isMax then (movesE s).any (fun c => ge0 player fuel c false)
      else (movesA s).all (fun c => ge0 player fuel c true)

/-- Canonical winnability (the value of `is_winnable`, which is
independent of the randomized move order). -/
def winnableC : ℕ → GameState → Bool
  | 0, _ => false
  | fuel + 1, s =>
    let winner := check_winner s
    if winner ≠ none ∧ winner ≠ some EMPTY then true
    else (nextMoves s).any (winnableC fuel)

/-- Over-approximation of the recursive call tree of `minimax_rec`:
`Calls s l s' l'` holds when evaluating `s` at depth `l` may evaluate
`s'` at depth `l'` (children of every randomized enumeration are members
of `nextMoves`; pruning only removes calls). -/
inductive Calls : GameState → ℕ → GameState → ℕ → Prop
  | refl (s : GameState) (l : ℕ) : Calls s l s l
  | step {s c s' : GameState} {l l' : ℕ} : c ∈ nextMoves s →
      Calls c (l + 1) s' l' → Calls s l s' l'

/-- The order-embedding `x ↦ x / (1 + |x|)` that carries the payoff scale
at depth `d` to the payoff scale at depth `d + 1` (`±1/d ↦ ±1/(d+1)`,
`0 ↦ 0`). -/
def shiftQ (x : ℚ) : ℚ := x / (1 + |x|)

/-- All cells of a state carry actual marks (`X`, `EMPTY` or `O`). -/
def validCells (s : GameState) : Prop := ∀ x ∈ s, x = X ∨ x = EMPTY ∨ x = O

/-- Positivity of a value's denominator: the value is finite, and
comparisons of such values agree with their rational interpretations. -/
def Val.denPos (v : Val) : Prop := 0 < v.den

/-- The fail-soft alpha-beta contract: the returned value `r` is a finite
value in the payoff range; it equals the plain minimax value `v` when it
lies strictly inside the `(alpha, beta)` window, is an upper bound of `v`
when it fails low, and a lower bound of `v` when it fails high. -/
def failSoftSpec (v : ℚ) (a b r : Val) : Prop :=
  Val.denPos r ∧ -1 ≤ r.toQ ∧ r.toQ ≤ 1 ∧
  (r.toQ ≤ a.toQ → v ≤ r.toQ) ∧ (b.toQ ≤ r.toQ → r.toQ ≤ v) ∧
  (a.toQ < r.toQ → r.toQ < b.toQ → r.toQ = v)

/-! ## Value comparisons agree with the rational interpretation -/

theorem Val.blt_iff {a b : Val} (ha : a.denPos) (hb : b.denPos) :
    Val.blt a b = true ↔ a.toQ < b.toQ := by
  have ha' : (0 : ℚ) < (a.den : ℚ) := by exact_mod_cast ha
  have hb' : (0 : ℚ) < (b.den : ℚ) := by exact_mod_cast hb
  rw [Val.blt, decide_eq_true_iff, Val.toQ, Val.toQ, div_lt_div_iff ha' hb']
  exact ⟨fun h => by exact_mod_cast h, fun h => by exact_mod_cast h⟩

theorem Val.ble_iff {a b : Val} (ha : a.denPos) (hb : b.denPos) :
    Val.ble a b = true ↔ a.toQ ≤ b.toQ := by
  have ha' : (0 : ℚ) < (a.den : ℚ) := by exact_mod_cast ha
  have hb' : (0 : ℚ) < (b.den : ℚ) := by exact_mod_cast hb
  rw [Val.ble, decide_eq_true_iff, Val.toQ, Val.toQ, div_le_div_iff ha' hb']
  exact ⟨fun h => by exact_mod_cast h, fun h => by exact_mod_cast h⟩

theorem Val.beq_iff {a b : Val} (ha : a.denPos) (hb : b.denPos) :
    Val.beq a b = true ↔ a.toQ = b.toQ := by
  have ha' : (a.den : ℚ) ≠ 0 := by
    exact_mod_cast Nat.pos_iff_ne_zero.mp ha
  have hb' : (b.den : ℚ) ≠ 0 := by
    exact_mod_cast Nat.pos_iff_ne_zero.mp hb
  rw [Val.beq, beq_iff_eq, Val.toQ, Val.toQ, div_eq_div_iff ha' hb']
  exact ⟨fun h => by exact_mod_cast h, fun h => by exact_mod_cast h⟩

theorem MINV_toQ : MINV.toQ = -1000 := by norm_num [MINV, Val.toQ]

theorem MAXV_toQ : MAXV.toQ = 1000 := by norm_num [MAXV, Val.toQ]

theorem MINV_denPos : MINV.denPos := Nat.one_pos

theorem MAXV_denPos : MAXV.denPos := Nat.one_pos

/-! ## Folded maxima and minima over lists of rationals -/

theorem foldl_max_init_le (l : List ℚ) (x : ℚ) : x ≤ l.foldl max x := by
  induction l generalizing x with
  | nil => exact le_refl x
  | cons c rest ih => exact le_trans (le_max_left x c) (ih (max x c))

theorem foldl_min_le_init (l : List ℚ) (x : ℚ) : l.foldl min x ≤ x := by
  induction l generalizing x with
  | nil => exact le_refl x
  | cons c rest ih => exact le_trans (ih (min x c)) (min_le_left x c)

theorem foldl_max_mono (l : List ℚ) {x y : ℚ} (h : x ≤ y) :
    l.foldl max x ≤ l.foldl max y := by
  induction l generalizing x y with
  | nil => exact h
  | cons c rest ih => exact ih (max_le_max h (le_refl c))

theorem foldl_min_mono (l : List ℚ) {x y : ℚ} (h : x ≤ y) :
    l.foldl min x ≤ l.foldl min y := by
  induction l generalizing x y with
  | nil => exact h
  | cons c rest ih => exact ih (min_le_min h (le_refl c))

theorem foldl_max_max (l : List ℚ) (x y : ℚ) :
    l.foldl max (max x y) = max x (l.foldl max y) := by
  induction l generalizing y with
  | nil => rfl
  | cons c rest ih =>
    rw [List.foldl_cons, List.foldl_cons, max_assoc, ih]

theorem foldl_min_min (l : List ℚ) (x y : ℚ) :
    l.foldl min (min x y) = min x (l.foldl min y) := by
  induction l generalizing y with
  | nil => rfl
  | cons c rest ih =>
    rw [List.foldl_cons, List.foldl_cons, min_assoc, ih]

theorem le_foldl_max_of_mem {l : List ℚ} {v : ℚ} (hv : v ∈ l) (x : ℚ) :
    v ≤ l.foldl max x := by
  induction l generalizing x with
  | nil => exact absurd hv (List.not_mem_nil v)
  | cons c rest ih =>
    rcases List.mem_cons.mp hv with h | h
    · subst h
      exact le_trans (le_max_right x v) (foldl_max_init_le rest (max x v))
    · exact ih h (max x c)

theorem foldl_min_le_of_mem {l : List ℚ} {v : ℚ} (hv : v ∈ l) (x : ℚ) :
    l.foldl min x ≤ v := by
  induction l generalizing x with
  | nil => exact absurd hv (List.not_mem_nil v)
  | cons c rest ih =>
    rcases List.mem_cons.mp hv with h | h
    · subst h
      exact le_trans (foldl_min_le_init rest (min x v)) (min_le_right x v)
    · exact ih h (min x c)

theorem foldl_max_le {l : List ℚ} {x c : ℚ} (hx : x ≤ c)
    (h : ∀ v ∈ l, v ≤ c) : l.foldl max x ≤ c := by
  induction l generalizing x with
  | nil => exact hx
  | cons d rest ih =>
    exact ih (max_le hx (h d (List.mem_cons_self d rest)))
      (fun v hv => h v (List.mem_cons_of_mem d hv))

theorem le_foldl_min {l : List ℚ} {x c : ℚ} (hx : c ≤ x)
    (h : ∀ v ∈ l, c ≤ v) : c ≤ l.foldl min x := by
  induction l generalizing x with
  | nil => exact hx
  | cons d rest ih =>
    exact ih (le_min hx (h d (List.mem_cons_self d rest)))
      (fun v hv => h v (List.mem_cons_of_mem d hv))

theorem foldl_max_absorb {l : List ℚ} (hl : l ≠ []) {x y : ℚ}
    (hx : ∀ v ∈ l, x ≤ v) (hy : ∀ v ∈ l, y ≤ v) :
    l.foldl max x = l.foldl max y := by
  cases l with
  | nil => exact absurd rfl hl
  | cons c rest =>
    rw [List.foldl_cons, List.foldl_cons,
      max_eq_right (hx c (List.mem_cons_self c rest)),
      max_eq_right (hy c (List.mem_cons_self c rest))]

theorem foldl_min_absorb {l : List ℚ} (hl : l ≠ []) {x y : ℚ}
    (hx : ∀ v ∈ l, v ≤ x) (hy : ∀ v ∈ l, v ≤ y) :
    l.foldl min x = l.foldl min y := by
  cases l with
  | nil => exact absurd rfl hl
  | cons c rest =>
    rw [List.foldl_cons, List.foldl_cons,
      min_eq_right (hx c (List.mem_cons_self c rest)),
      min_eq_right (hy c (List.mem_cons_self c rest))]

theorem monotone_foldl_max {f : ℚ → ℚ} (hf : Monotone f) (l : List ℚ)
    (x : ℚ) : f (l.foldl max x) = (l.map f).foldl max (f x) := by
  induction l generalizing x with
  | nil => rfl
  | cons c rest ih =>
    rw [List.map_cons, List.foldl_cons, List.foldl_cons, ← hf.map_max, ih]

theorem monotone_foldl_min {f : ℚ → ℚ} (hf : Monotone f) (l : List ℚ)
    (x : ℚ) : f (l.foldl min x) = (l.map f).foldl min (f x) := by
  induction l generalizing x with
  | nil => rfl
  | cons c rest ih =>
    rw [List.map_cons, List.foldl_cons, List.foldl_cons, ← hf.map_min, ih]

theorem neg_foldl_max (l : List ℚ) (x : ℚ) :
    -(l.foldl max x) = (l.map Neg.neg).foldl min (-x) := by
  induction l generalizing x with
  | nil => rfl
  | cons c rest ih =>
    rw [List.map_cons, List.foldl_cons, List.foldl_cons, ih (max x c), neg_sup]

theorem perm_foldl_max {l₁ l₂ : List ℚ} (h : l₁.Perm l₂) (x : ℚ) :
    l₁.foldl max x = l₂.foldl max x := by
  induction h generalizing x with
  | nil => rfl
  | cons c _ ih => rw [List.foldl_cons, List.foldl_cons, ih]
  | swap c d rest =>
    have h : x ⊔ d ⊔ c = x ⊔ c ⊔ d := by
      rw [max_assoc, max_comm d c, ← max_assoc]
    rw [List.foldl_cons, List.foldl_cons, List.foldl_cons, List.foldl_cons, h]
  | trans _ _ ih₁ ih₂ => rw [ih₁, ih₂]

theorem perm_foldl_min {l₁ l₂ : List ℚ} (h : l₁.Perm l₂) (x : ℚ) :
    l₁.foldl min x = l₂.foldl min x := by
  induction h generalizing x with
  | nil => rfl
  | cons c _ ih => rw [List.foldl_cons, List.foldl_cons, ih]
  | swap c d rest =>
    have h : x ⊓ d ⊓ c = x ⊓ c ⊓ d := by
      rw [min_assoc, min_comm d c, ← min_assoc]
    rw [List.foldl_cons, List.foldl_cons, List.foldl_cons, List.foldl_cons, h]
  | trans _ _ ih₁ ih₂ => rw [ih₁, ih₂]

/-! ## The winner check -/

theorem findSome?_of_guard {α β : Type} (p : α → Bool) (g : α → β)
    (f : α → Option β)
    (hf : ∀ a, f a = if p a then some (g a) else none) :
    ∀ l : List α, l.findSome? f = (l.find? p).map g := by
  intro l
  induction l with
  | nil => rfl
  | cons a rest ih =>
    rw [List.findSome?_cons, List.find?_cons, hf a]
    cases hp : p a with
    | true => simp
    | false => simpa using ih

theorem lineWin_eq_guard (s : GameState) (c : ℕ × ℕ × ℕ) :
    lineWin s c =
      if decide (s.getD c.1 0 = s.getD c.2.1 0 ∧ s.getD c.2.1 0 = s.getD c.2.2 0
          ∧ s.getD c.1 0 ≠ EMPTY) = true then
        some (s.getD c.1 0)
      else none := by
  show (if (s.getD c.1 0 = s.getD c.1 0 ∧ s.getD c.2.1 0 = s.getD c.1 0
      ∧ s.getD c.2.2 0 = s.getD c.1 0 ∧ s.getD c.1 0 ≠ EMPTY) then
      some (s.getD c.1 0) else none) = _
  by_cases h : s.getD c.1 0 = s.getD c.2.1 0 ∧ s.getD c.2.1 0 = s.getD c.2.2 0
      ∧ s.getD c.1 0 ≠ EMPTY
  · rcases h with ⟨h1, h2, h3⟩
    rw [if_pos ⟨rfl, h1.symm, (h1.trans h2).symm, h3⟩,
      if_pos (decide_eq_true ⟨h1, h2, h3⟩)]
  · rw [if_neg, if_neg]
    · intro hd
      exact h (of_decide_eq_true hd)
    · rintro ⟨-, h2, h3, h4⟩
      exact h ⟨h2.symm, h2.trans h3.symm, h4⟩

/-- Claim C4 support: `check_winner` returns the occupant of the first
all-equal non-empty line in the fixed enumeration order, else `Draw`
(`some EMPTY`) on a full board and `Undetermined` (`none`) otherwise. -/
theorem check_winner_eq_spec (s : GameState) :
    check_winner s =
      match combos.find? (fun c =>
          decide (s.getD c.1 0 = s.getD c.2.1 0 ∧ s.getD c.2.1 0 = s.getD c.2.2 0
            ∧ s.getD c.1 0 ≠ EMPTY)) with
      | some c => some (s.getD c.1 0)
      | none => if s.any (fun c => c == EMPTY) then none else some EMPTY := by
  rw [check_winner, findSome?_of_guard _ (fun c : ℕ × ℕ × ℕ => s.getD c.1 0) _
    (lineWin_eq_guard s)]
  cases h : combos.find? (fun c =>
      decide (s.getD c.1 0 = s.getD c.2.1 0 ∧ s.getD c.2.1 0 = s.getD c.2.2 0
        ∧ s.getD c.1 0 ≠ EMPTY)) with
  | none => rfl
  | some c => rfl

/-- If `check_winner` does not decide, some cell is empty. -/
theorem check_winner_none_empty {s : GameState} (h : check_winner s = none) :
    ∃ c ∈ s, c = EMPTY := by
  rw [check_winner] at h
  rcases hf : combos.findSome? (lineWin s) with _ | w
  · rw [hf] at h
    by_cases ha : s.any (fun c => c == EMPTY)
    · rcases List.any_eq_true.mp ha with ⟨c, hc, hceq⟩
      exact ⟨c, hc, by exact_mod_cast beq_iff_eq.mp hceq⟩
    · rw [if_neg ha] at h
      exact absurd h (Option.some_ne_none EMPTY)
  · rw [hf] at h
    exact absurd h (Option.some_ne_none w)

/-- A full board is always decided. -/
theorem check_winner_ne_none_of_full {s : GameState}
    (h : ∀ c ∈ s, c ≠ EMPTY) : check_winner s ≠ none := by
  intro hn
  rcases check_winner_none_empty hn with ⟨c, hc, hceq⟩
  exact h c hc hceq

/-- A decided winner is either the draw marker or one of the cells. -/
theorem check_winner_mem {s : GameState} {w : ℤ}
    (h : check_winner s = some w) : w = EMPTY ∨ w ∈ s := by
  rw [check_winner] at h
  rcases hf : combos.findSome? (lineWin s) with _ | v
  · rw [hf] at h
    by_cases ha : s.any (fun c => c == EMPTY)
    · rw [if_pos ha] at h
      exact absurd h (by simp)
    · rw [if_neg ha] at h
      exact Or.inl (Option.some_injective ℤ h).symm
  · rw [hf] at h
    rcases List.exists_of_findSome?_eq_some hf with ⟨c, -, hc⟩
    rw [lineWin_eq_guard] at hc
    by_cases hp : decide (s.getD c.1 0 = s.getD c.2.1 0
        ∧ s.getD c.2.1 0 = s.getD c.2.2 0 ∧ s.getD c.1 0 ≠ EMPTY) = true
    · rw [if_pos hp] at hc
      have hv : v = s.getD c.1 0 := (Option.some_injective ℤ hc).symm
      have hw : w = v := (Option.some_injective ℤ h).symm
      by_cases hlt : c.1 < s.length
      · refine Or.inr ?_
        rw [hw, hv, List.getD_eq_getElem s 0 hlt]
        exact List.getElem_mem hlt
      · exfalso
        rcases of_decide_eq_true hp with ⟨-, -, hne⟩
        exact hne (by
          rw [List.getD_eq_getElem?_getD, List.getElem?_eq_none (le_of_not_lt hlt)]
          rfl)
    · rw [if_neg hp] at hc
      exact absurd hc (Option.noConfusion)

/-! ## Cell counts and turns -/

theorem get?_of_getD {s : GameState} {i : ℕ} (h : i < s.length) :
    s.get? i = some (s.getD i 0) := by
  rw [List.get?_eq_getElem?, List.getElem?_eq_getElem h,
    List.getD_eq_getElem s 0 h]

theorem numFilled_add_numEmpty (s : GameState) :
    numFilled s + numEmpty s = s.length := by
  rw [numFilled, numEmpty,
    List.length_eq_countP_add_countP (fun c : ℤ => !(c == EMPTY)) s]
  congr 1
  exact List.countP_congr (fun x _ => by cases h : x == EMPTY <;> simp [h])

theorem numEmpty_le_length (s : GameState) : numEmpty s ≤ s.length := by
  have := numFilled_add_numEmpty s
  omega

theorem numEmpty_pos_of_empty_cell {s : GameState} {i : ℕ}
    (hi : i < s.length) (hc : s.getD i 0 = 0) : 0 < numEmpty s := by
  refine List.countP_pos.mpr ⟨s.getD i 0, ?_, by rw [hc]; rfl⟩
  rw [List.getD_eq_getElem s 0 hi]
  exact List.getElem_mem hi

theorem numEmpty_set {s : GameState} {i : ℕ} {m : ℤ} (hi : i < s.length)
    (hc : s.getD i 0 = 0) (hm : m ≠ 0) :
    numEmpty (s.set i m) + 1 = numEmpty s := by
  have hm' : (m == EMPTY) = false := by
    cases h : m == EMPTY
    · rfl
    · exact absurd (by exact_mod_cast beq_iff_eq.mp h) hm
  induction s generalizing i with
  | nil => exact absurd hi (by simp)
  | cons c rest ih =>
    cases i with
    | zero =>
      have hc0 : c = 0 := by simpa using hc
      rw [List.set_cons_zero, numEmpty, numEmpty, List.countP_cons,
        List.countP_cons, hc0, hm']
      simp [EMPTY]
    | succ j =>
      have hj : j < rest.length := by simpa using hi
      have hcj : rest.getD j 0 = 0 := by simpa using hc
      rw [List.set_cons_succ, numEmpty, numEmpty, List.countP_cons,
        List.countP_cons]
      have := ih hj hcj
      rw [numEmpty, numEmpty] at this
      omega

theorem numFilled_set {s : GameState} {i : ℕ} {m : ℤ} (hi : i < s.length)
    (hc : s.getD i 0 = 0) (hm : m ≠ 0) :
    numFilled (s.set i m) = numFilled s + 1 := by
  have h1 := numFilled_add_numEmpty (s.set i m)
  have h2 := numFilled_add_numEmpty s
  have h3 := numEmpty_set hi hc hm
  rw [List.length_set] at h1
  omega

theorem whos_turn_values (s : GameState) :
    whos_turn s = X ∨ whos_turn s = EMPTY ∨ whos_turn s = O := by
  rw [whos_turn]
  split_ifs
  · exact Or.inr (Or.inl rfl)
  · exact Or.inl rfl
  · exact Or.inr (Or.inr rfl)

theorem whos_turn_ne_zero {s : GameState} (hlen : s.length = 9)
    (h : 0 < numEmpty s) : whos_turn s ≠ EMPTY := by
  have hf : numFilled s ≠ 9 := by
    have := numFilled_add_numEmpty s
    omega
  rw [whos_turn, if_neg hf]
  split_ifs
  · exact fun hx => by norm_num [X, EMPTY] at hx
  · exact fun hx => by norm_num [O, EMPTY] at hx

/-! ## Move enumeration -/

theorem nextMoves_of_decided {s : GameState} (h : check_winner s ≠ none) :
    nextMoves s = [] := by
  rw [nextMoves, if_pos h]

theorem mem_nextMoves {s x : GameState} (hw : check_winner s = none) :
    x ∈ nextMoves s ↔
      ∃ i, i < s.length ∧ s.getD i 0 = 0 ∧ x = s.set i (whos_turn s) := by
  rw [nextMoves, if_neg (not_not_intro hw)]
  constructor
  · intro hx
    rcases List.mem_map.mp hx with ⟨p, hp, hfx⟩
    rcases List.mem_filter.mp hp with ⟨hpe, hp2⟩
    have hsome := List.mem_enum_iff_getElem?.mp hpe
    have hlt : p.1 < s.length := by
      by_contra hge
      rw [List.getElem?_eq_none (le_of_not_lt hge)] at hsome
      exact Option.noConfusion hsome
    have hget : s.getD p.1 0 = p.2 := by
      rw [List.getD_eq_getElem?_getD, hsome]
      rfl
    have hz : p.2 = 0 := by exact_mod_cast beq_iff_eq.mp hp2
    exact ⟨p.1, hlt, by rw [hget, hz], hfx.symm⟩
  · rintro ⟨i, hlt, hz, hx⟩
    refine List.mem_map.mpr ⟨(i, 0), List.mem_filter.mpr ⟨?_, rfl⟩, hx.symm⟩
    refine List.mem_enum_iff_getElem?.mpr ?_
    rw [List.getElem?_eq_getElem hlt, ← List.getD_eq_getElem s 0 hlt, hz]

theorem nextMoves_ne_nil {s : GameState} (hw : check_winner s = none) :
    nextMoves s ≠ [] := by
  rcases check_winner_none_empty hw with ⟨c, hc, hceq⟩
  rcases List.mem_iff_getElem?.mp hc with ⟨i, hi⟩
  have hlt : i < s.length := by
    by_contra hge
    rw [List.getElem?_eq_none (le_of_not_lt hge)] at hi
    exact Option.noConfusion hi
  have hz : s.getD i 0 = 0 := by rw [List.getD_eq_getElem?_getD, hi, hceq]; rfl
  intro hnil
  have := (mem_nextMoves hw).mpr ⟨i, hlt, hz, rfl⟩
  rw [hnil] at this
  exact List.not_mem_nil _ this

theorem nextMoves_nil_iff {s : GameState} :
    nextMoves s = [] ↔ check_winner s ≠ none := by
  constructor
  · intro h hw
    exact nextMoves_ne_nil hw h
  · exact nextMoves_of_decided

/-- The partitioning loop splits the candidates of the enumerated cells by
the tape bits `t k, t (k+1), …`, one fresh bit per empty cell. -/
theorem gnmAux_eq (t : ℕ → Bool) (s : GameState) (player : ℤ)
    (l : List (ℕ × ℤ)) (k : ℕ) :
    gnmAux t s player l k =
      (((((l.filter (fun p => p.2 == 0)).map
            (fun p => s.set p.1 player)).enumFrom k).filter
          (fun q => !t q.1)).map Prod.snd,
       ((((l.filter (fun p => p.2 == 0)).map
            (fun p => s.set p.1 player)).enumFrom k).filter
          (fun q => t q.1)).map Prod.snd) := by
  induction l generalizing k with
  | nil => rfl
  | cons p rest ih =>
    rcases p with ⟨i, num⟩
    by_cases hnum : num = EMPTY
    · have hb : (num == 0) = true := by rw [hnum]; rfl
      rw [gnmAux, if_pos hnum, ih (k + 1), List.filter_cons, hb]
      simp only [if_true, List.map_cons, List.enumFrom_cons, List.filter_cons]
      cases ht : t k with
      | true => simp [ht]
      | false => simp [ht]
    · have hb : (num == 0) = false := by
        cases h : num == 0
        · rfl
        · exact absurd (by exact_mod_cast beq_iff_eq.mp h) hnum
      rw [gnmAux, if_neg hnum, ih k, List.filter_cons, hb]
      simp

/-- Every randomized enumeration is a permutation of the canonical move
list. -/
theorem get_next_moves_perm (t : ℕ → Bool) (k : ℕ) (s : GameState) :
    (get_next_moves t k s).Perm (nextMoves s) := by
  by_cases hw : check_winner s = none
  · rw [get_next_moves, if_neg (not_not_intro hw), nextMoves,
      if_neg (not_not_intro hw), gnmAux_eq]
    set cands := (s.enum.filter (fun p => p.2 == 0)).map
      (fun p => s.set p.1 (whos_turn s)) with hcands
    set L := cands.enumFrom k with hL
    have hperm := List.filter_append_perm (fun q : ℕ × GameState => !t q.1) L
    have hcongr : L.filter (fun x => !(!t x.1)) = L.filter (fun q => t q.1) :=
      List.filter_congr (fun x _ => by rw [Bool.not_not])
    rw [hcongr] at hperm
    have hmap := hperm.map (Prod.snd : ℕ × GameState → GameState)
    rw [List.map_append, List.enumFrom_map_snd] at hmap
    exact hmap
  · rw [get_next_moves, if_pos hw, nextMoves_of_decided hw]

theorem get_next_moves_nil_iff {t : ℕ → Bool} {k : ℕ} {s : GameState} :
    get_next_moves t k s = [] ↔ nextMoves s = [] := by
  constructor
  · intro h
    have hp := get_next_moves_perm t k s
    rw [h] at hp
    exact hp.nil_eq.symm
  · intro h
    have hp := get_next_moves_perm t k s
    rw [h] at hp
    exact hp.eq_nil

theorem mem_get_next_moves {t : ℕ → Bool} {k : ℕ} {s c : GameState} :
    c ∈ get_next_moves t k s ↔ c ∈ nextMoves s :=
  (get_next_moves_perm t k s).mem_iff

/-! ## Properties of children -/

theorem nextMoves_child {s c : GameState} (hc : c ∈ nextMoves s) :
    check_winner s = none ∧
      ∃ i, i < s.length ∧ s.getD i 0 = 0 ∧ c = s.set i (whos_turn s) := by
  by_cases hw : check_winner s = none
  · exact ⟨hw, (mem_nextMoves hw).mp hc⟩
  · rw [nextMoves_of_decided hw] at hc
    exact absurd hc (List.not_mem_nil c)

theorem length_child {s c : GameState} (hc : c ∈ nextMoves s) :
    c.length = s.length := by
  rcases nextMoves_child hc with ⟨-, i, -, -, hceq⟩
  rw [hceq, List.length_set]

theorem numEmpty_child {s c : GameState} (hlen : s.length = 9)
    (hc : c ∈ nextMoves s) : numEmpty c + 1 = numEmpty s := by
  rcases nextMoves_child hc with ⟨-, i, hlt, hz, hceq⟩
  have hm : whos_turn s ≠ EMPTY :=
    whos_turn_ne_zero hlen (numEmpty_pos_of_empty_cell hlt hz)
  rw [hceq]
  exact numEmpty_set hlt hz hm

theorem validCells_child {s c : GameState} (hc : c ∈ nextMoves s)
    (hv : validCells s) : validCells c := by
  rcases nextMoves_child hc with ⟨-, i, -, -, hceq⟩
  rw [hceq]
  intro x hx
  rcases List.mem_or_eq_of_mem_set hx with h | h
  · exact hv x h
  · rcases whos_turn_values s with ht | ht | ht <;>
      rw [h, ht]
    · exact Or.inl rfl
    · exact Or.inr (Or.inl rfl)
    · exact Or.inr (Or.inr rfl)

/-! ## Reachable states -/

theorem reachable_length {s : GameState} (h : Reachable s) : s.length = 9 := by
  induction h with
  | empty => rfl
  | step i _ _ _ ih => rw [play_move, List.length_set, ih]

/-! ## Claim C4 -/

/-- Claim C4: for every state, `check_winner` returns the occupant of the
first line — rows top-to-bottom, then columns left-to-right, then the two
diagonals — whose three cells are equal and non-empty; if no such line
exists, it returns Draw (`some EMPTY`) when no cell is empty, and
Undetermined (`none`) when some cell is empty.  (Stated for all cell
assignments; the `3^9` assignments of the claim are the instances with
cells in `{X, EMPTY, O}`.) -/
theorem claim_C4_check_winner_first_line (s : GameState) :
    check_winner s =
      match combos.find? (fun c =>
          decide (s.getD c.1 0 = s.getD c.2.1 0 ∧ s.getD c.2.1 0 = s.getD c.2.2 0
            ∧ s.getD c.1 0 ≠ EMPTY)) with
      | some c => some (s.getD c.1 0)
      | none => if s.any (fun c => c == EMPTY) then none else some EMPTY :=
  check_winner_eq_spec s

/-! ## Claim C5 -/

/-- Claim C5: for every state and every assignment of tape bits to its
empty cells, `get_next_moves` returns the empty sequence on a decided
state; otherwise it returns exactly the candidates — one per empty cell in
ascending board order, the input with that cell set to `whos_turn` — with
the candidates whose bit is `0` (first partition) in order, followed by
those whose bit is `1` (second partition) in order. -/
theorem claim_C5_get_next_moves_partition (t : ℕ → Bool) (k : ℕ)
    (s : GameState) :
    (check_winner s ≠ none → get_next_moves t k s = []) ∧
    (check_winner s = none →
      get_next_moves t k s =
        (((((s.enum.filter (fun p => p.2 == 0)).map
              (fun p => s.set p.1 (whos_turn s))).enumFrom k).filter
            (fun q => !t q.1)).map Prod.snd) ++
        (((((s.enum.filter (fun p => p.2 == 0)).map
              (fun p => s.set p.1 (whos_turn s))).enumFrom k).filter
            (fun q => t q.1)).map Prod.snd)) := by
  constructor
  · intro h
    rw [get_next_moves, if_pos h]
  · intro hw
    rw [get_next_moves, if_neg (not_not_intro hw), gnmAux_eq]

/-- Witness for C5 at the spec's scenario state `[X,X,_,O,O,_,_,_,_]`. -/
theorem claim_C5_witness :
    check_winner [-1, -1, 0, 1, 1, 0, 0, 0, 0] = none ∧
    get_next_moves (fun _ => false) 0 [-1, -1, 0, 1, 1, 0, 0, 0, 0] =
      [[-1, -1, -1, 1, 1, 0, 0, 0, 0],
       [-1, -1, 0, 1, 1, -1, 0, 0, 0],
       [-1, -1, 0, 1, 1, 0, -1, 0, 0],
       [-1, -1, 0, 1, 1, 0, 0, -1, 0],
       [-1, -1, 0, 1, 1, 0, 0, 0, -1]] :=
  ⟨by decide,
    (claim_C5_get_next_moves_partition (fun _ => false) 0
      [(-1), -1, 0, 1, 1, 0, 0, 0, 0]).2 (by decide)⟩

/-! ## Claim C6 -/

/-- Claim C6: whenever `get_next_moves` returns the empty sequence (for
any tape realization), `check_winner` is decisive — a win or the draw
marker, never Undetermined — so the `unwrap` in the terminal case of
`minimax_rec` cannot panic. -/
theorem claim_C6_terminal_decisive (t : ℕ → Bool) (k : ℕ) (s : GameState)
    (h : get_next_moves t k s = []) : check_winner s ≠ none := by
  intro hw
  exact nextMoves_ne_nil hw (get_next_moves_nil_iff.mp h)

/-- Witness for C6 at a full drawn board. -/
theorem claim_C6_witness :
    get_next_moves (fun _ => false) 0 [-1, 1, -1, -1, 1, 1, 1, -1, -1] = [] ∧
    check_winner [-1, 1, -1, -1, 1, 1, 1, -1, -1] ≠ none :=
  ⟨by decide,
    claim_C6_terminal_decisive (fun _ => false) 0 _ (by decide)⟩

/-! ## Claim C10 -/

/-- Claim C10: `play_move` writes `whos_turn s` into cell `index` and
leaves every other cell unchanged, with no emptiness or legality check —
an occupied cell is silently overwritten, and on a full board the written
mark is the `EMPTY` sentinel, erasing the cell. -/
theorem claim_C10_play_move_frame (s : GameState) (i : ℕ)
    (hlen : s.length = 9) (hi : i ≤ 8) :
    (play_move s i).getD i 0 = whos_turn s ∧
    (∀ j, j ≠ i → (play_move s i).getD j 0 = s.getD j 0) ∧
    (numFilled s = 9 → (play_move s i).getD i 0 = EMPTY) := by
  have hlt : i < s.length := by omega
  have h1 : (play_move s i).getD i 0 = whos_turn s := by
    rw [play_move, List.getD_eq_getElem?_getD, List.getElem?_set_eq hlt]
    rfl
  refine ⟨h1, ?_, ?_⟩
  · intro j hj
    rw [play_move, List.getD_eq_getElem?_getD,
      List.getElem?_set_ne (fun h => hj h.symm), ← List.getD_eq_getElem?_getD]
  · intro hfull
    rw [h1, whos_turn, if_pos hfull]

/-- Witness for C10 on a full board: the mark at cell 0 is erased. -/
theorem claim_C10_witness :
    (play_move [-1, 1, -1, -1, 1, 1, 1, -1, -1] 0).getD 0 0 =
      whos_turn [-1, 1, -1, -1, 1, 1, 1, -1, -1] ∧
    (∀ j, j ≠ 0 →
      (play_move [-1, 1, -1, -1, 1, 1, 1, -1, -1] 0).getD j 0 =
        [(-1), 1, -1, -1, 1, 1, 1, -1, -1].getD j 0) ∧
    (numFilled [-1, 1, -1, -1, 1, 1, 1, -1, -1] = 9 →
      (play_move [-1, 1, -1, -1, 1, 1, 1, -1, -1] 0).getD 0 0 = EMPTY) :=
  claim_C10_play_move_frame [(-1), 1, -1, -1, 1, 1, 1, -1, -1] 0
    (by decide) (by decide)

/-! ## Claim C9 (corrected) -/

/-- Counterexample to claim C9 as stated: a state reachable by eight legal
placements with one empty cell left; the ninth placement is legal, but
`whos_turn` of the result is the no-turn sentinel `EMPTY`, not the
opposite player. -/
theorem claim_C9_counterexample :
    Reachable [-1, 1, -1, 1, -1, 1, 1, -1, 0] ∧
    (8 : ℕ) < 9 ∧ [(-1), 1, -1, 1, -1, 1, 1, -1, 0].getD 8 0 = EMPTY ∧
    ¬(whos_turn (play_move [(-1), 1, -1, 1, -1, 1, 1, -1, 0] 8) =
        -whos_turn [(-1), 1, -1, 1, -1, 1, 1, -1, 0]) := by
  refine ⟨?_, by decide, by decide, by decide⟩
  have h0 : Reachable emptyBoard := Reachable.empty
  have h1 : Reachable [-1, 0, 0, 0, 0, 0, 0, 0, 0] := by
    have h := Reachable.step 0 h0 (by decide) (by decide)
    rwa [show play_move emptyBoard 0 = [-1, 0, 0, 0, 0, 0, 0, 0, 0] from by
      decide] at h
  have h2 : Reachable [-1, 1, 0, 0, 0, 0, 0, 0, 0] := by
    have h := Reachable.step 1 h1 (by decide) (by decide)
    rwa [show play_move [(-1), 0, 0, 0, 0, 0, 0, 0, 0] 1 =
      [-1, 1, 0, 0, 0, 0, 0, 0, 0] from by decide] at h
  have h3 : Reachable [-1, 1, -1, 0, 0, 0, 0, 0, 0] := by
    have h := Reachable.step 2 h2 (by decide) (by decide)
    rwa [show play_move [(-1), 1, 0, 0, 0, 0, 0, 0, 0] 2 =
      [-1, 1, -1, 0, 0, 0, 0, 0, 0] from by decide] at h
  have h4 : Reachable [-1, 1, -1, 1, 0, 0, 0, 0, 0] := by
    have h := Reachable.step 3 h3 (by decide) (by decide)
    rwa [show play_move [(-1), 1, -1, 0, 0, 0, 0, 0, 0] 3 =
      [-1, 1, -1, 1, 0, 0, 0, 0, 0] from by decide] at h
  have h5 : Reachable [-1, 1, -1, 1, -1, 0, 0, 0, 0] := by
    have h := Reachable.step 4 h4 (by decide) (by decide)
    rwa [show play_move [(-1), 1, -1, 1, 0, 0, 0, 0, 0] 4 =
      [-1, 1, -1, 1, -1, 0, 0, 0, 0] from by decide] at h
  have h6 : Reachable [-1, 1, -1, 1, -1, 1, 0, 0, 0] := by
    have h := Reachable.step 5 h5 (by decide) (by decide)
    rwa [show play_move [(-1), 1, -1, 1, -1, 0, 0, 0, 0] 5 =
      [-1, 1, -1, 1, -1, 1, 0, 0, 0] from by decide] at h
  have h7 : Reachable [-1, 1, -1, 1, -1, 1, 0, -1, 0] := by
    have h := Reachable.step 7 h6 (by decide) (by decide)
    rwa [show play_move [(-1), 1, -1, 1, -1, 1, 0, 0, 0] 7 =
      [-1, 1, -1, 1, -1, 1, 0, -1, 0] from by decide] at h
  have h8 := Reachable.step 6 h7 (by decide) (by decide)
  rwa [show play_move [(-1), 1, -1, 1, -1, 1, 0, -1, 0] 6 =
    [-1, 1, -1, 1, -1, 1, 1, -1, 0] from by decide] at h8

/-- Claim C9 as amended: for every reachable state and legal move index,
if the move does not fill the ninth cell (at most 7 cells filled), then
`whos_turn` after `play_move` is the opposite player; the move that fills
the board instead yields the `EMPTY` no-turn sentinel. -/
theorem claim_C9_amended_alternation (s : GameState) (i : ℕ)
    (hr : Reachable s) (hi : i < 9) (hcell : s.getD i 0 = EMPTY)
    (hnf : numFilled s ≤ 7) :
    whos_turn (play_move s i) = -whos_turn s := by
  have hlen : s.length = 9 := reachable_length hr
  have hlt : i < s.length := by omega
  have hpos : 0 < numEmpty s := numEmpty_pos_of_empty_cell hlt hcell
  have hmne : whos_turn s ≠ EMPTY := whos_turn_ne_zero hlen hpos
  have hset : numFilled (play_move s i) = numFilled s + 1 := by
    rw [play_move]
    exact numFilled_set hlt hcell hmne
  have hne9 : numFilled s ≠ 9 := by omega
  have hne9' : numFilled (play_move s i) ≠ 9 := by omega
  by_cases hpar : numFilled s % 2 = 0
  · have hpar' : numFilled (play_move s i) % 2 ≠ 0 := by omega
    rw [whos_turn, if_neg hne9', if_neg hpar', whos_turn, if_neg hne9,
      if_pos hpar]
    norm_num [X, O]
  · have hpar' : numFilled (play_move s i) % 2 = 0 := by omega
    rw [whos_turn, if_neg hne9', if_pos hpar', whos_turn, if_neg hne9,
      if_neg hpar]
    norm_num [X, O]

/-- Witness for the amended C9 at the empty board. -/
theorem claim_C9_amended_witness :
    whos_turn (play_move emptyBoard 4) = -whos_turn emptyBoard :=
  claim_C9_amended_alternation emptyBoard 4 Reachable.empty (by decide)
    (by decide) (by decide)

/-! ## Claim C8 (corrected) -/

theorem perm_any {α : Type} {l₁ l₂ : List α} (h : l₁.Perm l₂) (f : α → Bool) :
    l₁.any f = l₂.any f := by
  induction h with
  | nil => rfl
  | cons c _ ih => rw [List.any_cons, List.any_cons, ih]
  | swap c d rest =>
    rw [List.any_cons, List.any_cons, List.any_cons, List.any_cons,
      Bool.or_left_comm]
  | trans _ _ ih₁ ih₂ => rw [ih₁, ih₂]

theorem iwLoop_any (t : ℕ → Bool) (fuel : ℕ)
    (hrec : ∀ (pos : ℕ) (c : GameState),
      (is_winnable t fuel pos c).1 = winnableC fuel c) :
    ∀ (cs : List GameState) (pos : ℕ),
    (iwLoop (is_winnable t fuel) cs pos).1 =
      cs.any (fun c => winnableC fuel c) := by
  intro cs
  induction cs with
  | nil => intro pos; rfl
  | cons c rest ih =>
    intro pos
    rw [iwLoop, List.any_cons, ← hrec pos c]
    cases hr : (is_winnable t fuel pos c).1 with
    | true => rw [if_pos rfl]; rfl
    | false =>
      rw [if_neg (by exact Bool.false_ne_true), ih _, Bool.false_or]

/-- `is_winnable` computes the canonical winnability, for every tape and
tape position. -/
theorem is_winnable_eq_winnableC (t : ℕ → Bool) :
    ∀ (fuel pos : ℕ) (s : GameState),
    (is_winnable t fuel pos s).1 = winnableC fuel s := by
  intro fuel
  induction fuel with
  | zero => intro pos s; rfl
  | succ fuel ih =>
    intro pos s
    rw [is_winnable, winnableC]
    by_cases hd : check_winner s ≠ none ∧ check_winner s ≠ some EMPTY
    · rw [if_pos hd, if_pos hd]
    · rw [if_neg hd, if_neg hd,
        iwLoop_any t fuel (fun pos c => ih pos c) _ (pos + bitsUsed s),
        perm_any (get_next_moves_perm t pos s)]

/-- Counterexample to claim C8 as stated: a full board with a winning
line, on which `is_winnable` returns `true`, not `false`. -/
theorem claim_C8_counterexample :
    (∀ c ∈ ([-1, -1, -1, 1, 1, -1, 1, -1, 1] : GameState), c ≠ EMPTY) ∧
    (is_winnable (fun _ => false) 10 0 [-1, -1, -1, 1, 1, -1, 1, -1, 1]).1 =
      true := by
  exact ⟨by decide, by decide⟩

/-- Claim C8 as amended: `is_winnable` returns `false` on every full
*drawn* board (a full board with no winning line, i.e. `check_winner` is
the draw marker) — a full board with a winner yields `true` — and returns
`true` on the all-empty board, for every realization of the randomized
move enumeration. -/
theorem claim_C8_amended_winnable :
    (∀ (t : ℕ → Bool) (pos : ℕ) (s : GameState), check_winner s = some EMPTY →
      (is_winnable t 10 pos s).1 = false) ∧
    (∀ (t : ℕ → Bool) (pos : ℕ), (is_winnable t 10 pos emptyBoard).1 = true) := by
  constructor
  · intro t pos s hw
    rw [is_winnable, if_neg (fun h => h.2 hw), get_next_moves,
      if_pos (by rw [hw]; exact fun h => Option.noConfusion h)]
    rfl
  · intro t pos
    rw [is_winnable_eq_winnableC t 10 pos emptyBoard]
    decide

/-- Witness for the amended C8: a concrete full drawn board and the empty
board. -/
theorem claim_C8_amended_witness :
    (is_winnable (fun _ => false) 10 0 [-1, 1, -1, -1, 1, 1, 1, -1, -1]).1 =
      false ∧
    (is_winnable (fun _ => false) 10 0 emptyBoard).1 = true :=
  ⟨claim_C8_amended_winnable.1 (fun _ => false) 0 _ (by decide),
    claim_C8_amended_winnable.2 (fun _ => false) 0⟩

/-! ## Value selections -/

theorem denPos_ite (P : Prop) [Decidable P] {u v : Val} (hu : u.denPos)
    (hv : v.denPos) : Val.denPos (if P then u else v) := by
  by_cases h : P
  · rw [if_pos h]; exact hu
  · rw [if_neg h]; exact hv

theorem selMax_toQ {u v : Val} (hu : u.denPos) (hv : v.denPos) :
    (if Val.blt u v then v else u).toQ = max u.toQ v.toQ := by
  by_cases h : Val.blt u v = true
  · rw [if_pos h, max_eq_right (le_of_lt ((Val.blt_iff hu hv).mp h))]
  · rw [if_neg h, max_eq_left]
    by_contra hlt
    exact h ((Val.blt_iff hu hv).mpr (lt_of_not_le hlt))

theorem selMin_toQ {u v : Val} (hu : u.denPos) (hv : v.denPos) :
    (if Val.blt v u then v else u).toQ = min u.toQ v.toQ := by
  by_cases h : Val.blt v u = true
  · rw [if_pos h, min_eq_right (le_of_lt ((Val.blt_iff hv hu).mp h))]
  · rw [if_neg h, min_eq_left]
    by_contra hlt
    exact h ((Val.blt_iff hv hu).mpr (lt_of_not_le hlt))

/-! ## Payoffs -/

theorem leafVal_toQ (w p : ℤ) (level : ℕ) :
    (leafVal w p level).toQ = payoffQ w p level := by
  rw [leafVal, payoffQ]
  split_ifs
  · rw [Val.toQ]
    norm_num
  · rw [Val.toQ]
    norm_num
  · rw [Val.toQ]
    push_cast
    rw [neg_div]

theorem leafVal_denPos (w p : ℤ) {level : ℕ} (h : 1 ≤ level) :
    (leafVal w p level).denPos := by
  rw [leafVal]
  split_ifs
  · exact h
  · exact Nat.one_pos
  · exact h

theorem payoffQ_range (w p : ℤ) {level : ℕ} (h : 1 ≤ level) :
    -1 ≤ payoffQ w p level ∧ payoffQ w p level ≤ 1 := by
  have hL : (1 : ℚ) ≤ (level : ℚ) := by exact_mod_cast h
  have hL0 : (0 : ℚ) < (level : ℚ) := lt_of_lt_of_le one_pos hL
  have hd : 1 / (level : ℚ) ≤ 1 := by
    rw [div_le_one hL0]; exact hL
  have hd0 : 0 < 1 / (level : ℚ) := by positivity
  rw [payoffQ]
  split_ifs
  · exact ⟨by linarith, hd⟩
  · norm_num
  · constructor <;> [linarith; linarith]

/-- A draw payoff forces the draw winner. -/
theorem payoffQ_eq_zero {w p : ℤ} {level : ℕ} (h1 : 1 ≤ level)
    (h : payoffQ w p level = 0) : w = EMPTY := by
  have hL0 : (0 : ℚ) < (level : ℚ) := by exact_mod_cast h1
  have hd0 : (1 : ℚ) / (level : ℚ) ≠ 0 := by positivity
  rw [payoffQ] at h
  by_cases h1' : w = p
  · rw [if_pos h1'] at h
    exact absurd h hd0
  · rw [if_neg h1'] at h
    by_cases h2 : w = EMPTY
    · exact h2
    · rw [if_neg h2] at h
      exact absurd (neg_eq_zero.mp h) hd0

/-! ## Unfolding the evaluators -/

theorem plainValue_terminal {player : ℤ} {fuel : ℕ} {s : GameState}
    {isMax : Bool} {level : ℕ} (h : nextMoves s = []) :
    plainValue player (fuel + 1) s isMax level =
      payoffQ ((check_winner s).getD 0) player level := by
  rw [plainValue]
  simp [h]

theorem plainValue_max {player : ℤ} {fuel : ℕ} {s : GameState} {level : ℕ}
    (h : nextMoves s ≠ []) :
    plainValue player (fuel + 1) s true level =
      ((nextMoves s).map
        (fun c => plainValue player fuel c false (level + 1))).foldl max
        (-1000) := by
  rw [plainValue]
  simp [h]

theorem plainValue_min {player : ℤ} {fuel : ℕ} {s : GameState} {level : ℕ}
    (h : nextMoves s ≠ []) :
    plainValue player (fuel + 1) s false level =
      ((nextMoves s).map
        (fun c => plainValue player fuel c true (level + 1))).foldl min
        1000 := by
  rw [plainValue]
  simp [h]

theorem minimaxRec_terminal (t : ℕ → Bool) (player : ℤ) {fuel pos : ℕ}
    {s : GameState} {isMax : Bool} {level : ℕ} {a b : Val}
    (h : nextMoves s = []) :
    minimaxRec t player (fuel + 1) pos s isMax level a b =
      (leafVal ((check_winner s).getD 0) player level, [], pos) := by
  have hg : get_next_moves t pos s = [] := get_next_moves_nil_iff.mpr h
  rw [minimaxRec]
  simp [hg]

theorem minimaxRec_loop (t : ℕ → Bool) (player : ℤ) {fuel pos : ℕ}
    {s : GameState} {isMax : Bool} {level : ℕ} {a b : Val}
    (h : nextMoves s ≠ []) :
    minimaxRec t player (fuel + 1) pos s isMax level a b =
      mmLoop (minimaxRec t player fuel) isMax level (get_next_moves t pos s)
        (pos + bitsUsed s) (if isMax then MINV else MAXV) a b := by
  have hg : get_next_moves t pos s ≠ [] :=
    fun hh => h (get_next_moves_nil_iff.mp hh)
  rw [minimaxRec]
  simp only [List.isEmpty_iff]
  rw [if_neg hg]

theorem mmLoop_cons_max
    (recEval : ℕ → GameState → Bool → ℕ → Val → Val → Val × List (GameState × Val) × ℕ)
    (level : ℕ) (c : GameState) (rest : List GameState) (pos : ℕ)
    (value a b : Val) (e : Val) (pos' : ℕ) (value' a' : Val)
    (he : (recEval pos c false (level + 1) a b).1 = e)
    (hp : (recEval pos c false (level + 1) a b).2.2 = pos')
    (hv' : (if Val.blt value e then e else value) = value')
    (ha' : (if Val.blt a value' then value' else a) = a') :
    mmLoop recEval true level (c :: rest) pos value a b =
      if Val.ble b value' then (value', [(c, e)], pos')
      else
        ((mmLoop recEval true level rest pos' value' a' b).1,
         (c, e) :: (mmLoop recEval true level rest pos' value' a' b).2.1,
         (mmLoop recEval true level rest pos' value' a' b).2.2) := by
  subst ha' hv' hp he
  rfl

theorem mmLoop_cons_min
    (recEval : ℕ → GameState → Bool → ℕ → Val → Val → Val × List (GameState × Val) × ℕ)
    (level : ℕ) (c : GameState) (rest : List GameState) (pos : ℕ)
    (value a b : Val) (e : Val) (pos' : ℕ) (value' b' : Val)
    (he : (recEval pos c true (level + 1) a b).1 = e)
    (hp : (recEval pos c true (level + 1) a b).2.2 = pos')
    (hv' : (if Val.blt e value then e else value) = value')
    (hb' : (if Val.blt value' b then value' else b) = b') :
    mmLoop recEval false level (c :: rest) pos value a b =
      if Val.ble value' a then (value', [(c, e)], pos')
      else
        ((mmLoop recEval false level rest pos' value' a b').1,
         (c, e) :: (mmLoop recEval false level rest pos' value' a b').2.1,
         (mmLoop recEval false level rest pos' value' a b').2.2) := by
  subst hb' hv' hp he
  rfl

/-! ## Fail-soft alpha-beta: the maximizing loop -/

theorem mmLoopMax_failSoft (t : ℕ → Bool) (player : ℤ) (fuel level : ℕ)
    (b : Val) (hbP : b.denPos) (hb1000 : b.toQ ≤ 1000) :
    ∀ (cs : List GameState) (pos : ℕ) (value a : Val),
    (∀ c ∈ cs, ∀ (p : ℕ) (a' : Val), Val.denPos a' → -1000 ≤ a'.toQ →
      a'.toQ < b.toQ →
      failSoftSpec (plainValue player fuel c false (level + 1)) a' b
        (minimaxRec t player fuel p c false (level + 1) a' b).1) →
    Val.denPos value → Val.denPos a → -1000 ≤ a.toQ → a.toQ < b.toQ →
    value.toQ ≤ a.toQ → -1000 ≤ value.toQ → value.toQ ≤ 1 →
    ∀ r : Val,
    r = (mmLoop (minimaxRec t player fuel) true level cs pos value a b).1 →
    ∀ W : ℚ,
    W = (cs.map (fun c => plainValue player fuel c false (level + 1))).foldl
          max value.toQ →
    Val.denPos r ∧ value.toQ ≤ r.toQ ∧ r.toQ ≤ 1 ∧
    (cs ≠ [] → -1 ≤ r.toQ) ∧
    (r.toQ ≤ a.toQ → W ≤ r.toQ) ∧ (b.toQ ≤ r.toQ → r.toQ ≤ W) ∧
    (a.toQ < r.toQ → r.toQ < b.toQ → r.toQ = W) := by
  intro cs
  induction cs with
  | nil =>
    intro pos value a hC hvP haP ha1000 hab hva hv1000 hv1 r hr W hW
    rw [mmLoop] at hr
    subst hr
    subst hW
    refine ⟨hvP, le_refl _, hv1, fun h => absurd rfl h, ?_, ?_, ?_⟩
    · intro _
      exact le_of_eq rfl
    · intro _
      exact le_of_eq rfl
    · intro _ _
      rfl
  | cons c rest ih =>
    intro pos value a hC hvP haP ha1000 hab hva hv1000 hv1 r hr W hW
    obtain ⟨heP, he1, he2, hlow, hhigh, hexact⟩ :=
      hC c (List.mem_cons_self c rest) pos a haP ha1000 hab
    set e := (minimaxRec t player fuel pos c false (level + 1) a b).1 with hedef
    set pos' :=
      (minimaxRec t player fuel pos c false (level + 1) a b).2.2 with hpdef
    set value' := if Val.blt value e then e else value with hvdf
    set a' := if Val.blt a value' then value' else a with hadf
    rw [mmLoop_cons_max (minimaxRec t player fuel) level c rest pos value a b
      e pos' value' a' hedef.symm hpdef.symm hvdf.symm hadf.symm] at hr
    have hv'P : value'.denPos := by
      rw [hvdf]; exact denPos_ite _ heP hvP
    have hv'Q : value'.toQ = max value.toQ e.toQ := by
      rw [hvdf]; exact selMax_toQ hvP heP
    have ha'P : a'.denPos := by
      rw [hadf]; exact denPos_ite _ hv'P haP
    have ha'Q : a'.toQ = max a.toQ value'.toQ := by
      rw [hadf]; exact selMax_toQ haP hv'P
    have hv'le1 : value'.toQ ≤ 1 := by rw [hv'Q]; exact max_le hv1 he2
    have hv'ge : value.toQ ≤ value'.toQ := by rw [hv'Q]; exact le_max_left _ _
    have hv'gee : e.toQ ≤ value'.toQ := by rw [hv'Q]; exact le_max_right _ _
    have hv'gem : -1000 ≤ value'.toQ := le_trans hv1000 hv'ge
    set vc := plainValue player fuel c false (level + 1) with hvcdef
    set S := (rest.map
      (fun c => plainValue player fuel c false (level + 1))).foldl max
      value.toQ with hSdef
    have hWc : W = max vc S := by
      rw [hW, List.map_cons, List.foldl_cons, max_comm value.toQ vc,
        foldl_max_max, hSdef]
    by_cases hbrk : Val.ble b value' = true
    · -- alpha-beta cutoff: the loop breaks after this child
      have hrv : r = value' := by rw [hr, if_pos hbrk]
      have hbv : b.toQ ≤ value'.toQ := (Val.ble_iff hbP hv'P).mp hbrk
      have hvb : value.toQ < b.toQ := lt_of_le_of_lt hva hab
      have heb : b.toQ ≤ e.toQ := by
        by_contra hlt
        push_neg at hlt
        have : value'.toQ < b.toQ := by rw [hv'Q]; exact max_lt hvb hlt
        linarith
      have hre : r.toQ = e.toQ := by
        rw [hrv, hv'Q, max_eq_right (le_trans (le_of_lt hvb) heb)]
      refine ⟨by rw [hrv]; exact hv'P, by rw [hrv]; exact hv'ge,
        by rw [hre]; exact he2, fun _ => by rw [hre]; exact he1, ?_, ?_, ?_⟩
      · intro hra
        exfalso
        rw [hrv] at hra
        linarith
      · intro _
        rw [hre, hWc]
        exact le_trans (hhigh heb) (le_max_left vc S)
      · intro _ hrb
        exfalso
        rw [hrv] at hrb
        linarith
    · -- no cutoff: the loop continues with the rest of the children
      have hbrk' : value'.toQ < b.toQ := by
        by_contra hge
        push_neg at hge
        exact hbrk ((Val.ble_iff hbP hv'P).mpr hge)
      have hrr : r =
          (mmLoop (minimaxRec t player fuel) true level rest pos' value' a'
            b).1 := by
        rw [hr, if_neg hbrk]
      have ha'1000 : -1000 ≤ a'.toQ :=
        le_trans ha1000 (by rw [ha'Q]; exact le_max_left _ _)
      have ha'b : a'.toQ < b.toQ := by rw [ha'Q]; exact max_lt hab hbrk'
      have hv'a' : value'.toQ ≤ a'.toQ := by rw [ha'Q]; exact le_max_right _ _
      have hCrest : ∀ c' ∈ rest, ∀ (p : ℕ) (a'' : Val), Val.denPos a'' →
          -1000 ≤ a''.toQ → a''.toQ < b.toQ →
          failSoftSpec (plainValue player fuel c' false (level + 1)) a'' b
            (minimaxRec t player fuel p c' false (level + 1) a'' b).1 :=
        fun c' hc' => hC c' (List.mem_cons_of_mem c hc')
      obtain ⟨IHdP, IHvr, IHr1, IHrm1, IH1, IH2, IH3⟩ :=
        ih pos' value' a' hCrest hv'P ha'P ha'1000 ha'b hv'a' hv'gem hv'le1
          _ rfl _ rfl
      rw [← hrr] at IHdP IHvr IHr1 IHrm1 IH1 IH2 IH3
      set W' := (rest.map
        (fun c => plainValue player fuel c false (level + 1))).foldl max
        value'.toQ with hWdf
      have hrm1' : -1 ≤ r.toQ := le_trans (le_trans he1 hv'gee) IHvr
      by_cases hea : e.toQ ≤ a.toQ
      · -- the child failed low: its stored value bounds its true value
        have hvce : vc ≤ e.toQ := hlow hea
        have hv'a : value'.toQ ≤ a.toQ := by rw [hv'Q]; exact max_le hva hea
        have ha'a : a'.toQ = a.toQ := by rw [ha'Q]; exact max_eq_left hv'a
        have hW'e : W' = max e.toQ S := by
          rw [hWdf, hv'Q, max_comm value.toQ e.toQ, foldl_max_max, hSdef]

        refine ⟨IHdP, le_trans hv'ge IHvr, IHr1, fun _ => hrm1', ?_, ?_, ?_⟩
        · intro hra
          have hW'r : W' ≤ r.toQ := IH1 (by rw [ha'a]; exact hra)
          have hWW' : W ≤ W' := by
            rw [hWc, hW'e]
            exact max_le_max hvce (le_refl S)
          exact le_trans hWW' hW'r
        · intro hbr
          have hrW' : r.toQ ≤ W' := IH2 hbr
          have her : e.toQ < r.toQ := lt_of_le_of_lt hea (lt_of_lt_of_le hab hbr)
          have hrS : r.toQ ≤ S := by
            rcases max_cases e.toQ S with ⟨hm, -⟩ | ⟨hm, -⟩
            · rw [hW'e, hm] at hrW'
              linarith
            · rw [hW'e, hm] at hrW'
              exact hrW'
          rw [hWc]
          exact le_trans hrS (le_max_right vc S)
        · intro har hrb
          have hexa : r.toQ = W' := IH3 (by rw [ha'a]; exact har) hrb
          have her : e.toQ < r.toQ := lt_of_le_of_lt hea har
          have hrS : r.toQ = S := by
            rcases max_cases e.toQ S with ⟨hm, -⟩ | ⟨hm, -⟩
            · rw [hW'e, hm] at hexa
              linarith
            · rw [hW'e, hm] at hexa
              exact hexa
          rw [hWc, hrS, max_eq_right]
          exact le_of_lt (lt_of_le_of_lt (le_trans hvce hea) (hrS ▸ har))
        -- (end of the fail-low subcase)
      · -- the child was evaluated exactly
        push_neg at hea
        have hevc : e.toQ = vc := hexact hea (lt_of_le_of_lt hv'gee hbrk')
        have hW'W : W' = W := by
          rw [hWdf, hv'Q, max_comm value.toQ e.toQ, foldl_max_max, ← hSdef,
            hevc, hWc]
        refine ⟨IHdP, le_trans hv'ge IHvr, IHr1, fun _ => hrm1', ?_, ?_, ?_⟩
        · intro hra
          have ha'r : r.toQ ≤ a'.toQ := by
            rw [ha'Q]
            exact le_trans hra (le_max_left _ _)
          rw [← hW'W]
          exact IH1 ha'r
        · intro hbr
          rw [← hW'W]
          exact IH2 hbr
        · intro har hrb
          have ha'le : a'.toQ ≤ r.toQ := by
            rw [ha'Q]
            exact max_le (le_of_lt har) IHvr
          rcases lt_or_eq_of_le ha'le with h | h
          · rw [← hW'W]
            exact IH3 h hrb
          · -- the running alpha equals the result: it must be `value'`
            have hrv' : r.toQ = value'.toQ := by
              rcases max_cases a.toQ value'.toQ with ⟨hm, hge⟩ | ⟨hm, -⟩
              · exfalso
                rw [ha'Q, hm] at h
                linarith
              · rw [← h, ha'Q, hm]
            have h1 : W' ≤ r.toQ := IH1 (le_of_eq h.symm)
            have h2 : r.toQ ≤ W' := by
              rw [hrv', hWdf]
              exact foldl_max_init_le _ _
            rw [← hW'W]
            linarith

/-! ## Fail-soft alpha-beta: the minimizing loop -/

theorem mmLoopMin_failSoft (t : ℕ → Bool) (player : ℤ) (fuel level : ℕ)
    (a : Val) (haP : a.denPos) (ha1000 : -1000 ≤ a.toQ) :
    ∀ (cs : List GameState) (pos : ℕ) (value b : Val),
    (∀ c ∈ cs, ∀ (p : ℕ) (b' : Val), Val.denPos b' → b'.toQ ≤ 1000 →
      a.toQ < b'.toQ →
      failSoftSpec (plainValue player fuel c true (level + 1)) a b'
        (minimaxRec t player fuel p c true (level + 1) a b').1) →
    Val.denPos value → Val.denPos b → b.toQ ≤ 1000 → a.toQ < b.toQ →
    b.toQ ≤ value.toQ → value.toQ ≤ 1000 → -1 ≤ value.toQ →
    ∀ r : Val,
    r = (mmLoop (minimaxRec t player fuel) false level cs pos value a b).1 →
    ∀ W : ℚ,
    W = (cs.map (fun c => plainValue player fuel c true (level + 1))).foldl
          min value.toQ →
    Val.denPos r ∧ r.toQ ≤ value.toQ ∧ -1 ≤ r.toQ ∧
    (cs ≠ [] → r.toQ ≤ 1) ∧
    (r.toQ ≤ a.toQ → W ≤ r.toQ) ∧ (b.toQ ≤ r.toQ → r.toQ ≤ W) ∧
    (a.toQ < r.toQ → r.toQ < b.toQ → r.toQ = W) := by
  intro cs
  induction cs with
  | nil =>
    intro pos value b hC hvP hbP hb1000 hab hbv hv1000 hvm1 r hr W hW
    rw [mmLoop] at hr
    subst hr
    subst hW
    refine ⟨hvP, le_refl _, hvm1, fun h => absurd rfl h, ?_, ?_, ?_⟩
    · intro _
      exact le_of_eq rfl
    · intro _
      exact le_of_eq rfl
    · intro _ _
      rfl
  | cons c rest ih =>
    intro pos value b hC hvP hbP hb1000 hab hbv hv1000 hvm1 r hr W hW
    obtain ⟨heP, he1, he2, hlow, hhigh, hexact⟩ :=
      hC c (List.mem_cons_self c rest) pos b hbP hb1000 hab
    set e := (minimaxRec t player fuel pos c true (level + 1) a b).1 with hedef
    set pos' :=
      (minimaxRec t player fuel pos c true (level + 1) a b).2.2 with hpdef
    set value' := if Val.blt e value then e else value with hvdf
    set b' := if Val.blt value' b then value' else b with hbdf
    rw [mmLoop_cons_min (minimaxRec t player fuel) level c rest pos value a b
      e pos' value' b' hedef.symm hpdef.symm hvdf.symm hbdf.symm] at hr
    have hv'P : value'.denPos := by
      rw [hvdf]; exact denPos_ite _ heP hvP
    have hv'Q : value'.toQ = min value.toQ e.toQ := by
      rw [hvdf]; exact selMin_toQ hvP heP
    have hb'P : b'.denPos := by
      rw [hbdf]; exact denPos_ite _ hv'P hbP
    have hb'Q : b'.toQ = min b.toQ value'.toQ := by
      rw [hbdf]; exact selMin_toQ hbP hv'P
    have hv'gem1 : -1 ≤ value'.toQ := by rw [hv'Q]; exact le_min hvm1 he1
    have hv'le : value'.toQ ≤ value.toQ := by
      rw [hv'Q]; exact min_le_left _ _
    have hv'lee : value'.toQ ≤ e.toQ := by rw [hv'Q]; exact min_le_right _ _
    have hv'le1000 : value'.toQ ≤ 1000 := le_trans hv'le hv1000
    have hWc : W = min (plainValue player fuel c true (level + 1))
        ((rest.map (fun c => plainValue player fuel c true (level + 1))).foldl
          min value.toQ) := by
      rw [hW]
      simp only [List.map_cons, List.foldl_cons]
      rw [min_comm value.toQ, foldl_min_min]
    set vc := plainValue player fuel c true (level + 1) with hvcdef
    set S := (rest.map
      (fun c => plainValue player fuel c true (level + 1))).foldl min
      value.toQ with hSdef
    by_cases hbrk : Val.ble value' a = true
    · -- alpha-beta cutoff: the loop breaks after this child
      have hrv : r = value' := by rw [hr, if_pos hbrk]
      have hva' : value'.toQ ≤ a.toQ := (Val.ble_iff hv'P haP).mp hbrk
      have hav : a.toQ < value.toQ := lt_of_lt_of_le hab hbv
      have hea : e.toQ ≤ a.toQ := by
        by_contra hlt
        push_neg at hlt
        have : a.toQ < value'.toQ := by rw [hv'Q]; exact lt_min hav hlt
        linarith
      have hre : r.toQ = e.toQ := by
        rw [hrv, hv'Q, min_eq_right (le_trans hea (le_of_lt hav))]
      refine ⟨by rw [hrv]; exact hv'P, by rw [hrv]; exact hv'le,
        by rw [hre]; exact he1, fun _ => by rw [hre]; exact he2, ?_, ?_, ?_⟩
      · intro _
        rw [hre, hWc]
        exact le_trans (min_le_left vc S) (hlow hea)
      · intro hbr
        exfalso
        rw [hrv] at hbr
        linarith
      · intro har _
        exfalso
        rw [hrv] at har
        linarith
    · -- no cutoff: the loop continues with the rest of the children
      have hbrk' : a.toQ < value'.toQ := by
        by_contra hge
        push_neg at hge
        exact hbrk ((Val.ble_iff hv'P haP).mpr hge)
      have hrr : r =
          (mmLoop (minimaxRec t player fuel) false level rest pos' value' a
            b').1 := by
        rw [hr, if_neg hbrk]
      have hb'1000 : b'.toQ ≤ 1000 :=
        le_trans (by rw [hb'Q]; exact min_le_left _ _) hb1000
      have hab' : a.toQ < b'.toQ := by rw [hb'Q]; exact lt_min hab hbrk'
      have hb'v' : b'.toQ ≤ value'.toQ := by rw [hb'Q]; exact min_le_right _ _
      have hCrest : ∀ c' ∈ rest, ∀ (p : ℕ) (b'' : Val), Val.denPos b'' →
          b''.toQ ≤ 1000 → a.toQ < b''.toQ →
          failSoftSpec (plainValue player fuel c' true (level + 1)) a b''
            (minimaxRec t player fuel p c' true (level + 1) a b'').1 :=
        fun c' hc' => hC c' (List.mem_cons_of_mem c hc')
      obtain ⟨IHdP, IHvr, IHrm1, IHr1, IH1, IH2, IH3⟩ :=
        ih pos' value' b' hCrest hv'P hb'P hb'1000 hab' hb'v' hv'le1000
          hv'gem1 _ rfl _ rfl
      rw [← hrr] at IHdP IHvr IHrm1 IH1 IH2 IH3
      rw [← hrr] at IHr1
      set W' := (rest.map
        (fun c => plainValue player fuel c true (level + 1))).foldl min
        value'.toQ with hWdf
      have hr1' : r.toQ ≤ 1 := le_trans IHvr (le_trans hv'lee he2)
      by_cases heb : b.toQ ≤ e.toQ
      · -- the child failed high: its stored value bounds its true value
        have hevc : e.toQ ≤ vc := hhigh heb
        have hv'b : b.toQ ≤ value'.toQ := by rw [hv'Q]; exact le_min hbv heb
        have hb'b : b'.toQ = b.toQ := by rw [hb'Q]; exact min_eq_left hv'b
        have hW'e : W' = min e.toQ S := by
          rw [hWdf, hv'Q, min_comm value.toQ e.toQ, foldl_min_min, hSdef]
        refine ⟨IHdP, le_trans IHvr hv'le, IHrm1, fun _ => hr1', ?_, ?_, ?_⟩
        · intro hra
          have hW'r : W' ≤ r.toQ := IH1 hra
          have her : r.toQ < e.toQ :=
            lt_of_le_of_lt hra (lt_of_lt_of_le hab heb)
          have hrS : S ≤ r.toQ := by
            rcases min_cases e.toQ S with ⟨hm, -⟩ | ⟨hm, -⟩
            · rw [hW'e, hm] at hW'r
              linarith
            · rw [hW'e, hm] at hW'r
              exact hW'r
          rw [hWc]
          exact le_trans (min_le_right vc S) hrS
        · intro hbr
          have hrW' : r.toQ ≤ W' := IH2 (by rw [hb'b]; exact hbr)
          rw [hWc]
          refine le_min ?_ ?_
          · exact le_trans (le_trans hrW' (by rw [hW'e]; exact min_le_left _ _))
              hevc
          · exact le_trans hrW' (by rw [hW'e]; exact min_le_right _ _)
        · intro har hrb
          have hexa : r.toQ = W' := IH3 har (by rw [hb'b]; exact hrb)
          have her : r.toQ < e.toQ := lt_of_lt_of_le hrb heb
          have hrS : r.toQ = S := by
            rcases min_cases e.toQ S with ⟨hm, -⟩ | ⟨hm, -⟩
            · rw [hW'e, hm] at hexa
              linarith
            · rw [hW'e, hm] at hexa
              exact hexa
          rw [hWc, hrS, min_eq_right]
          exact le_of_lt (lt_of_lt_of_le (hrS ▸ her) hevc)
      · -- the child was evaluated exactly
        push_neg at heb
        have hae : a.toQ < e.toQ := lt_of_lt_of_le hbrk' hv'lee
        have hevc : e.toQ = vc := hexact hae heb
        have hW'W : W' = W := by
          rw [hWdf, hv'Q, min_comm value.toQ e.toQ, foldl_min_min, ← hSdef,
            hevc, hWc]
        refine ⟨IHdP, le_trans IHvr hv'le, IHrm1, fun _ => hr1', ?_, ?_, ?_⟩
        · intro hra
          rw [← hW'W]
          exact IH1 hra
        · intro hbr
          have hb'r : b'.toQ ≤ r.toQ := by
            rw [hb'Q]
            exact le_trans (min_le_left _ _) hbr
          rw [← hW'W]
          exact IH2 hb'r
        · intro har hrb
          have hb'ge : r.toQ ≤ b'.toQ := by
            rw [hb'Q]
            exact le_min (le_of_lt hrb) IHvr
          rcases lt_or_eq_of_le hb'ge with h | h
          · rw [← hW'W]
            exact IH3 har h
          · -- the running beta equals the result: it must be `value'`
            have hrv' : r.toQ = value'.toQ := by
              rcases min_cases b.toQ value'.toQ with ⟨hm, hle⟩ | ⟨hm, -⟩
              · exfalso
                rw [hb'Q, hm] at h
                linarith
              · rw [h, hb'Q, hm]
            have h1 : r.toQ ≤ W' := IH2 (le_of_eq h.symm)
            have h2 : W' ≤ r.toQ := by
              rw [hrv', hWdf]
              exact foldl_min_le_init _ _
            rw [← hW'W]
            linarith

/-! ## Fail-soft alpha-beta: the main theorem -/

/-- `minimax_rec` satisfies the fail-soft alpha-beta contract against the
plain minimax value, for every tape, every window inside the sentinel
bounds, and every node that is either below the root or has a legal
move. -/
theorem minimaxRec_failSoft (t : ℕ → Bool) (player : ℤ) :
    ∀ (fuel : ℕ) (s : GameState) (pos : ℕ) (isMax : Bool) (level : ℕ)
      (a b : Val),
    s.length = 9 → numEmpty s < fuel → (1 ≤ level ∨ nextMoves s ≠ []) →
    Val.denPos a → Val.denPos b → -1000 ≤ a.toQ → b.toQ ≤ 1000 →
    a.toQ < b.toQ →
    failSoftSpec (plainValue player fuel s isMax level) a b
      (minimaxRec t player fuel pos s isMax level a b).1 := by
  intro fuel
  induction fuel with
  | zero =>
    intro s pos isMax level a b hlen hfuel
    exact absurd hfuel (Nat.not_lt_zero _)
  | succ fuel ih =>
    intro s pos isMax level a b hlen hfuel hlv haP hbP ha1000 hb1000 hab
    by_cases hterm : nextMoves s = []
    · -- terminal node: the payoff is returned exactly
      have hlevel : 1 ≤ level := by
        rcases hlv with h | h
        · exact h
        · exact absurd hterm h
      have hrw : (minimaxRec t player (fuel + 1) pos s isMax level a b).1 =
          leafVal ((check_winner s).getD 0) player level := by
        rw [minimaxRec_terminal t player hterm]
      rw [hrw, plainValue_terminal hterm, failSoftSpec]
      obtain ⟨hp1, hp2⟩ := payoffQ_range ((check_winner s).getD 0) player hlevel
      refine ⟨leafVal_denPos _ _ hlevel, ?_, ?_, ?_, ?_, ?_⟩
      · rw [leafVal_toQ]
        exact hp1
      · rw [leafVal_toQ]
        exact hp2
      · intro _
        exact le_of_eq (leafVal_toQ _ _ _).symm
      · intro _
        exact le_of_eq (leafVal_toQ _ _ _)
      · intro _ _
        exact leafVal_toQ _ _ _
    · -- interior node: delegate to the loop lemmas
      have hgne : get_next_moves t pos s ≠ [] :=
        fun h => hterm (get_next_moves_nil_iff.mp h)
      cases isMax with
      | false =>
        have hchild : ∀ c ∈ get_next_moves t pos s, ∀ (p : ℕ) (b' : Val),
            Val.denPos b' → b'.toQ ≤ 1000 → a.toQ < b'.toQ →
            failSoftSpec (plainValue player fuel c true (level + 1)) a b'
              (minimaxRec t player fuel p c true (level + 1) a b').1 := by
          intro c hc p b' hb'P hb'1000 hab'
          have hcn : c ∈ nextMoves s := mem_get_next_moves.mp hc
          have hclen : c.length = 9 := by rw [length_child hcn, hlen]
          have hcf : numEmpty c < fuel := by
            have := numEmpty_child hlen hcn
            omega
          exact ih c p true (level + 1) a b' hclen hcf (Or.inl (by omega))
            haP hb'P ha1000 hb'1000 hab'
        have hreq : (minimaxRec t player (fuel + 1) pos s false level a b).1 =
            (mmLoop (minimaxRec t player fuel) false level
              (get_next_moves t pos s) (pos + bitsUsed s) MAXV a b).1 := by
          rw [@minimaxRec_loop t player fuel pos s false level a b hterm]
          rfl
        have hWp : ((get_next_moves t pos s).map
            (fun c => plainValue player fuel c true (level + 1))).foldl min
              (MAXV.toQ) = plainValue player (fuel + 1) s false level := by
          rw [MAXV_toQ, plainValue_min hterm]
          exact perm_foldl_min ((get_next_moves_perm t pos s).map _) 1000
        obtain ⟨hdP, hrv, hrm1, hr1, h1, h2, h3⟩ :=
          mmLoopMin_failSoft t player fuel level a haP ha1000
            (get_next_moves t pos s) (pos + bitsUsed s) MAXV b hchild
            MAXV_denPos hbP hb1000 hab (by rw [MAXV_toQ]; exact hb1000)
            (by rw [MAXV_toQ]) (by rw [MAXV_toQ]; norm_num)
            ((minimaxRec t player (fuel + 1) pos s false level a b).1) hreq
            _ rfl
        rw [failSoftSpec]
        exact ⟨hdP, hrm1, hr1 hgne, fun h => hWp ▸ h1 h, fun h => hWp ▸ h2 h,
          fun h h' => hWp ▸ h3 h h'⟩
      | true =>
        have hchild : ∀ c ∈ get_next_moves t pos s, ∀ (p : ℕ) (a' : Val),
            Val.denPos a' → -1000 ≤ a'.toQ → a'.toQ < b.toQ →
            failSoftSpec (plainValue player fuel c false (level + 1)) a' b
              (minimaxRec t player fuel p c false (level + 1) a' b).1 := by
          intro c hc p a' ha'P ha'1000 ha'b
          have hcn : c ∈ nextMoves s := mem_get_next_moves.mp hc
          have hclen : c.length = 9 := by rw [length_child hcn, hlen]
          have hcf : numEmpty c < fuel := by
            have := numEmpty_child hlen hcn
            omega
          exact ih c p false (level + 1) a' b hclen hcf (Or.inl (by omega))
            ha'P hbP ha'1000 hb1000 ha'b
        have hreq : (minimaxRec t player (fuel + 1) pos s true level a b).1 =
            (mmLoop (minimaxRec t player fuel) true level
              (get_next_moves t pos s) (pos + bitsUsed s) MINV a b).1 := by
          rw [@minimaxRec_loop t player fuel pos s true level a b hterm]
          rfl
        have hWp : ((get_next_moves t pos s).map
            (fun c => plainValue player fuel c false (level + 1))).foldl max
              (MINV.toQ) = plainValue player (fuel + 1) s true level := by
          rw [MINV_toQ, plainValue_max hterm]
          exact perm_foldl_max ((get_next_moves_perm t pos s).map _) (-1000)
        obtain ⟨hdP, hrv, hr1, hrm1, h1, h2, h3⟩ :=
          mmLoopMax_failSoft t player fuel level b hbP hb1000
            (get_next_moves t pos s) (pos + bitsUsed s) MINV a hchild
            MINV_denPos haP ha1000 hab (by rw [MINV_toQ]; exact ha1000)
            (by rw [MINV_toQ]) (by rw [MINV_toQ]; norm_num)
            ((minimaxRec t player (fuel + 1) pos s true level a b).1) hreq
            _ rfl
        rw [failSoftSpec]
        exact ⟨hdP, hrm1 hgne, hr1, fun h => hWp ▸ h1 h, fun h => hWp ▸ h2 h,
          fun h h' => hWp ▸ h3 h h'⟩

/-! ## The plain minimax value stays in the payoff range -/

theorem plainValue_range (player : ℤ) :
    ∀ (fuel : ℕ) (s : GameState) (isMax : Bool) (level : ℕ),
    s.length = 9 → numEmpty s < fuel → (1 ≤ level ∨ nextMoves s ≠ []) →
    -1 ≤ plainValue player fuel s isMax level ∧
      plainValue player fuel s isMax level ≤ 1 := by
  intro fuel
  induction fuel with
  | zero =>
    intro s isMax level hlen hfuel
    exact absurd hfuel (Nat.not_lt_zero _)
  | succ fuel ih =>
    intro s isMax level hlen hfuel hlv
    by_cases hterm : nextMoves s = []
    · have hlevel : 1 ≤ level := by
        rcases hlv with h | h
        · exact h
        · exact absurd hterm h
      rw [plainValue_terminal hterm]
      exact payoffQ_range _ _ hlevel
    · have hex : ∀ c ∈ nextMoves s, ∀ m : Bool,
          -1 ≤ plainValue player fuel c m (level + 1) ∧
            plainValue player fuel c m (level + 1) ≤ 1 := by
        intro c hc m
        have hclen : c.length = 9 := by rw [length_child hc, hlen]
        have hcf : numEmpty c < fuel := by
          have := numEmpty_child hlen hc
          omega
        exact ih c m (level + 1) hclen hcf (Or.inl (by omega))
      rcases List.exists_mem_of_ne_nil _ hterm with ⟨c0, hc0⟩
      cases isMax with
      | true =>
        rw [plainValue_max hterm]
        constructor
        · exact le_trans (hex c0 hc0 false).1
            (le_foldl_max_of_mem (List.mem_map_of_mem _ hc0) _)
        · refine foldl_max_le (by norm_num) ?_
          intro v hv
          rcases List.mem_map.mp hv with ⟨c, hc, hvc⟩
          rw [← hvc]
          exact (hex c hc false).2
      | false =>
        rw [plainValue_min hterm]
        constructor
        · refine le_foldl_min (by norm_num) ?_
          intro v hv
          rcases List.mem_map.mp hv with ⟨c, hc, hvc⟩
          rw [← hvc]
          exact (hex c hc true).1
        · exact le_trans (foldl_min_le_of_mem (List.mem_map_of_mem _ hc0) _)
            (hex c0 hc0 true).2

/-! ## Claim C1 -/

/-- Claim C1: for every state with at least one legal move and every
realization of the randomized move ordering, the recursive evaluation
invoked at the root with `maximizing = true`, depth `0`, `alpha = -1000`
and `beta = 1000` returns exactly the plain (unpruned) minimax value of
the payoff-`±1/depth` game tree: the pruning never changes the root
value. -/
theorem claim_C1_alphabeta_eq_plain (t : ℕ → Bool) (player : ℤ)
    (fuel pos : ℕ) (s : GameState) (hlen : s.length = 9)
    (hfuel : numEmpty s < fuel) (hmoves : get_next_moves t pos s ≠ []) :
    ((minimaxRec t player fuel pos s true 0 MINV MAXV).1).toQ =
      plainValue player fuel s true 0 := by
  have hne : nextMoves s ≠ [] := fun h => hmoves (get_next_moves_nil_iff.mpr h)
  obtain ⟨hdP, hm1, h1, -, -, hexact⟩ :=
    minimaxRec_failSoft t player fuel s pos true 0 MINV MAXV hlen hfuel
      (Or.inr hne) MINV_denPos MAXV_denPos (by rw [MINV_toQ])
      (by rw [MAXV_toQ]) (by rw [MINV_toQ, MAXV_toQ]; norm_num)
  exact hexact (by rw [MINV_toQ]; linarith) (by rw [MAXV_toQ]; linarith)

/-- Witness for C1 at a state with a single legal move. -/
theorem claim_C1_witness :
    ((minimaxRec (fun _ => false) (-1) 2 0 [-1, 1, -1, 1, -1, 1, 1, -1, 0]
        true 0 MINV MAXV).1).toQ =
      plainValue (-1) 2 [-1, 1, -1, 1, -1, 1, 1, -1, 0] true 0 :=
  claim_C1_alphabeta_eq_plain (fun _ => false) (-1) 2 0
    [(-1), 1, -1, 1, -1, 1, 1, -1, 0] (by decide) (by decide) (by decide)

/-! ## The root loop: no pruning, all children pushed, and the first child
whose stored value equals the root value carries its exact plain value -/

theorem mmLoopMax_root (t : ℕ → Bool) (player : ℤ) (fuel level : ℕ) :
    ∀ (cs : List GameState) (pos : ℕ) (value a : Val),
    (∀ c ∈ cs, ∀ (p : ℕ) (a' : Val), Val.denPos a' → -1000 ≤ a'.toQ →
      a'.toQ < MAXV.toQ →
      failSoftSpec (plainValue player fuel c false (level + 1)) a' MAXV
        (minimaxRec t player fuel p c false (level + 1) a' MAXV).1) →
    Val.denPos value → Val.denPos a → -1000 ≤ a.toQ → a.toQ = value.toQ →
    value.toQ ≤ 1 →
    ∀ res,
    res = mmLoop (minimaxRec t player fuel) true level cs pos value a MAXV →
    res.2.1.map Prod.fst = cs ∧
    Val.denPos res.1 ∧
    res.1.toQ = (cs.map
      (fun c => plainValue player fuel c false (level + 1))).foldl max
        value.toQ ∧
    (value.toQ < res.1.toQ →
      ∃ pr, res.2.1.find? (fun q => Val.beq q.2 res.1) = some pr ∧
        pr.1 ∈ cs ∧
        plainValue player fuel pr.1 false (level + 1) = res.1.toQ) := by
  intro cs
  induction cs with
  | nil =>
    intro pos value a hC hvP haP ha1000 hav hv1 res hres
    rw [mmLoop] at hres
    subst hres
    exact ⟨rfl, hvP, rfl, fun h => absurd h (lt_irrefl _)⟩
  | cons c rest ih =>
    intro pos value a hC hvP haP ha1000 hav hv1 res hres
    have haM : a.toQ < MAXV.toQ := by
      rw [MAXV_toQ, hav]
      linarith
    obtain ⟨heP, he1, he2, hlow, hhigh, hexact⟩ :=
      hC c (List.mem_cons_self c rest) pos a haP ha1000 haM
    set e := (minimaxRec t player fuel pos c false (level + 1) a MAXV).1
      with hedef
    set pos' :=
      (minimaxRec t player fuel pos c false (level + 1) a MAXV).2.2 with hpdef
    set value' := if Val.blt value e then e else value with hvdf
    set a' := if Val.blt a value' then value' else a with hadf
    rw [mmLoop_cons_max (minimaxRec t player fuel) level c rest pos value a
      MAXV e pos' value' a' hedef.symm hpdef.symm hvdf.symm hadf.symm]
      at hres
    have hv'P : value'.denPos := by
      rw [hvdf]; exact denPos_ite _ heP hvP
    have hv'Q : value'.toQ = max value.toQ e.toQ := by
      rw [hvdf]; exact selMax_toQ hvP heP
    have ha'P : a'.denPos := by
      rw [hadf]; exact denPos_ite _ hv'P haP
    have ha'Q : a'.toQ = max a.toQ value'.toQ := by
      rw [hadf]; exact selMax_toQ haP hv'P
    have hv'ge : value.toQ ≤ value'.toQ := by rw [hv'Q]; exact le_max_left _ _
    have hv'le1 : value'.toQ ≤ 1 := by rw [hv'Q]; exact max_le hv1 he2
    have hnb : ¬(Val.ble MAXV value' = true) := by
      intro hb
      have := (Val.ble_iff MAXV_denPos hv'P).mp hb
      rw [MAXV_toQ] at this
      linarith
    rw [if_neg hnb] at hres
    have hav' : a'.toQ = value'.toQ := by
      rw [ha'Q, hav]
      exact max_eq_right hv'ge
    have ha'1000 : -1000 ≤ a'.toQ :=
      le_trans ha1000 (by rw [ha'Q]; exact le_max_left _ _)
    have hCrest : ∀ c' ∈ rest, ∀ (p : ℕ) (a'' : Val), Val.denPos a'' →
        -1000 ≤ a''.toQ → a''.toQ < MAXV.toQ →
        failSoftSpec (plainValue player fuel c' false (level + 1)) a'' MAXV
          (minimaxRec t player fuel p c' false (level + 1) a'' MAXV).1 :=
      fun c' hc' => hC c' (List.mem_cons_of_mem c hc')
    obtain ⟨IHmap, IHdP, IHval, IHfind⟩ :=
      ih pos' value' a' hCrest hv'P ha'P ha'1000 hav' hv'le1 _ rfl
    subst hres
    set R := mmLoop (minimaxRec t player fuel) true level rest pos' value' a'
      MAXV with hRdef
    have hcase : value'.toQ =
        max value.toQ (plainValue player fuel c false (level + 1)) := by
      by_cases hea : e.toQ ≤ a.toQ
      · have hvce := hlow hea
        have hev : e.toQ ≤ value.toQ := le_trans hea (le_of_eq hav)
        rw [hv'Q, max_eq_left hev,
          max_eq_left (le_trans hvce hev)]
      · push_neg at hea
        have heM : e.toQ < MAXV.toQ := by
          rw [MAXV_toQ]
          linarith
        rw [hv'Q, hexact hea heM]
    have hfold : R.1.toQ = ((c :: rest).map
        (fun c => plainValue player fuel c false (level + 1))).foldl max
          value.toQ := by
      rw [IHval]
      simp only [List.map_cons, List.foldl_cons]
      rw [← hcase]
    refine ⟨?_, IHdP, hfold, ?_⟩
    · show ((c, e) :: R.2.1).map Prod.fst = c :: rest
      rw [List.map_cons, IHmap]
    · intro hlt
      by_cases hbeq : Val.beq e R.1 = true
      · have heq : e.toQ = R.1.toQ := (Val.beq_iff heP IHdP).mp hbeq
        refine ⟨(c, e), ?_, List.mem_cons_self c rest, ?_⟩
        · show ((c, e) :: R.2.1).find? (fun q => Val.beq q.2 R.1) = some (c, e)
          rw [List.find?_cons]
          simp only [hbeq]
        · by_cases hea : e.toQ ≤ a.toQ
          · exfalso
            rw [heq] at hea
            rw [hav] at hea
            linarith
          · push_neg at hea
            have heM : e.toQ < MAXV.toQ := by
              rw [MAXV_toQ]
              linarith
            rw [← hexact hea heM, heq]
      · have hne : e.toQ ≠ R.1.toQ :=
          fun h => hbeq ((Val.beq_iff heP IHdP).mpr h)
        have hvR : value'.toQ ≤ R.1.toQ := by
          rw [IHval]
          exact foldl_max_init_le _ _
        have hv'lt : value'.toQ < R.1.toQ := by
          rcases lt_or_eq_of_le hvR with h | h
          · exact h
          · exfalso
            have hve : value'.toQ = e.toQ := by
              rcases max_cases value.toQ e.toQ with ⟨hm, -⟩ | ⟨hm, -⟩
              · rw [hv'Q, hm] at h
                rw [← h] at hlt
                exact absurd hlt (lt_irrefl _)
              · rw [hv'Q, hm]
            exact hne (by rw [← hve, h])
        obtain ⟨pr, hfind, hmem, hval⟩ := IHfind hv'lt
        refine ⟨pr, ?_, List.mem_cons_of_mem c hmem, hval⟩
        show ((c, e) :: R.2.1).find? (fun q => Val.beq q.2 R.1) = some pr
        have hf : Val.beq e R.1 = false := by
          cases hEE : Val.beq e R.1
          · rfl
          · exact absurd hEE hbeq
        rw [List.find?_cons]
        simp only [hf]
        exact hfind

/-! ## Optimality of the returned move -/

/-- `minimax` returns the first root child whose stored value equals the
root value; that child is a genuine child of the input, and its plain
minimax value equals the root's plain value (the chosen move is
optimal). -/
theorem minimax_optimal (t : ℕ → Bool) (s : GameState)
    (hlen : s.length = 9) (hmoves : get_next_moves t 0 s ≠ []) :
    ∃ c, minimax t s = some c ∧ c ∈ get_next_moves t 0 s ∧
      plainValue (whos_turn s) 9 c false 1 =
        plainValue (whos_turn s) 10 s true 0 := by
  have hterm : nextMoves s ≠ [] :=
    fun h => hmoves (get_next_moves_nil_iff.mpr h)
  have hfuel : numEmpty s < 10 := by
    have := numEmpty_le_length s
    omega
  set player := whos_turn s with hpl
  have hchild : ∀ c ∈ get_next_moves t 0 s, ∀ (p : ℕ) (a' : Val),
      Val.denPos a' → -1000 ≤ a'.toQ → a'.toQ < MAXV.toQ →
      failSoftSpec (plainValue player 9 c false (0 + 1)) a' MAXV
        (minimaxRec t player 9 p c false (0 + 1) a' MAXV).1 := by
    intro c hc p a' ha'P ha'1000 ha'M
    have hcn := mem_get_next_moves.mp hc
    have hclen : c.length = 9 := by rw [length_child hcn, hlen]
    have hcf : numEmpty c < 9 := by
      have := numEmpty_child hlen hcn
      omega
    exact minimaxRec_failSoft t player 9 c p false (0 + 1) a' MAXV hclen hcf
      (Or.inl (by omega)) ha'P MAXV_denPos ha'1000 (by rw [MAXV_toQ]) ha'M
  have hreq : minimaxRec t player 10 0 s true 0 MINV MAXV =
      mmLoop (minimaxRec t player 9) true 0 (get_next_moves t 0 s)
        (0 + bitsUsed s) MINV MINV MAXV := by
    rw [show (10 : ℕ) = 9 + 1 from rfl,
      @minimaxRec_loop t player 9 0 s true 0 MINV MAXV hterm]
    rfl
  obtain ⟨hmap, hdP, hval, hfind⟩ :=
    mmLoopMax_root t player 9 0 (get_next_moves t 0 s) (0 + bitsUsed s) MINV
      MINV hchild MINV_denPos MINV_denPos (by rw [MINV_toQ]) rfl
      (by rw [MINV_toQ]; norm_num)
      (minimaxRec t player 10 0 s true 0 MINV MAXV) hreq
  have hplain : ((minimaxRec t player 10 0 s true 0 MINV MAXV).1).toQ =
      plainValue player 10 s true 0 := by
    rw [hval, MINV_toQ, show (10 : ℕ) = 9 + 1 from rfl,
      @plainValue_max player 9 s 0 hterm]
    exact perm_foldl_max ((get_next_moves_perm t 0 s).map _) (-1000)
  have hgt : MINV.toQ <
      ((minimaxRec t player 10 0 s true 0 MINV MAXV).1).toQ := by
    rcases List.exists_mem_of_ne_nil _ hmoves with ⟨c0, hc0⟩
    have hc0n := mem_get_next_moves.mp hc0
    have hc0len : c0.length = 9 := by rw [length_child hc0n, hlen]
    have hc0f : numEmpty c0 < 9 := by
      have := numEmpty_child hlen hc0n
      omega
    have hr0 := (plainValue_range player 9 c0 false (0 + 1) hc0len hc0f
      (Or.inl (by omega))).1
    have hle : plainValue player 9 c0 false (0 + 1) ≤
        ((minimaxRec t player 10 0 s true 0 MINV MAXV).1).toQ := by
      rw [hval]
      exact le_foldl_max_of_mem (List.mem_map_of_mem _ hc0) _
    rw [MINV_toQ]
    linarith
  obtain ⟨pr, hfind', hmem, hprval⟩ := hfind hgt
  refine ⟨pr.1, ?_, hmem, ?_⟩
  · rw [minimax]
    simp only [← hpl]
    rw [hfind']
  · exact hprval.trans hplain

/-! ## Claim C2 -/

/-- Claim C2: for every 9-cell state with at least one legal move and every
realization of the randomized move ordering, `minimax` returns `some`
state, and that state is one of the direct children `get_next_moves`
produces from the input; the absent-result branch is unreachable. -/
theorem claim_C2_minimax_returns_child (t : ℕ → Bool) (s : GameState)
    (hlen : s.length = 9) (hmoves : get_next_moves t 0 s ≠ []) :
    ∃ c, minimax t s = some c ∧ c ∈ get_next_moves t 0 s := by
  obtain ⟨c, h1, h2, -⟩ := minimax_optimal t s hlen hmoves
  exact ⟨c, h1, h2⟩

/-- Witness for C2 at a state with a single legal move. -/
theorem claim_C2_witness :
    ∃ c, minimax (fun _ => false) [-1, 1, -1, 1, -1, 1, 1, -1, 0] = some c ∧
      c ∈ get_next_moves (fun _ => false) 0 [-1, 1, -1, 1, -1, 1, 1, -1, 0] :=
  claim_C2_minimax_returns_child (fun _ => false)
    [(-1), 1, -1, 1, -1, 1, 1, -1, 0] (by decide) (by decide)

/-! ## Claim C7 (corrected) -/

theorem Calls_le {s s' : GameState} {l l' : ℕ} (h : Calls s l s' l') :
    l ≤ l' := by
  induction h with
  | refl => exact le_refl _
  | step _ _ ih => exact le_trans (Nat.le_succ _) ih

/-- Counterexample to claim C7 as stated: invoking the evaluation at depth
0 on a terminal state (here a full drawn board, on which `minimax` can be
invoked) executes the terminal case at depth 0, not at depth ≥ 1. -/
theorem claim_C7_counterexample :
    Calls [-1, 1, -1, -1, 1, 1, 1, -1, -1] 0
        [-1, 1, -1, -1, 1, 1, 1, -1, -1] 0 ∧
    nextMoves [-1, 1, -1, -1, 1, 1, 1, -1, -1] = [] ∧ ¬(1 ≤ 0) :=
  ⟨Calls.refl _ 0, by decide, by decide⟩

/-- Claim C7 as amended: when the search is invoked at depth 0 on a state
with at least one legal move, every terminal-case evaluation it can reach
executes at depth ≥ 1; on a terminal input state the base case executes at
the unguarded depth 0 (in `f32` the division yields an infinity, not a
panic). -/
theorem claim_C7_amended_depth_positive (s s' : GameState) (l' : ℕ)
    (hmoves : nextMoves s ≠ []) (hcall : Calls s 0 s' l')
    (hterm : nextMoves s' = []) : 1 ≤ l' := by
  cases hcall with
  | refl => exact absurd hterm hmoves
  | step _ hrest => exact Calls_le hrest

/-- Witness for the amended C7: one ply from a one-empty-cell state. -/
theorem claim_C7_amended_witness :
    nextMoves [-1, 1, -1, 1, -1, 1, 1, -1, -1] = [] ∧ (1 : ℕ) ≤ 1 :=
  ⟨by decide,
    claim_C7_amended_depth_positive [(-1), 1, -1, 1, -1, 1, 1, -1, 0]
      [(-1), 1, -1, 1, -1, 1, 1, -1, -1] 1 (by decide)
      (Calls.step (by decide) (Calls.refl _ 1)) (by decide)⟩

/-! ## Zero-sum duality, fuel congruence and depth shift of the plain value -/

theorem neg_foldl_min (l : List ℚ) (x : ℚ) :
    -(l.foldl min x) = (l.map Neg.neg).foldl max (-x) := by
  induction l generalizing x with
  | nil => rfl
  | cons c rest ih =>
    rw [List.map_cons, List.foldl_cons, List.foldl_cons, ih (min x c), neg_inf]

/-- Any winner produced on a board with actual marks is an actual mark. -/
theorem winner_values {s : GameState} {w : ℤ} (hv : validCells s)
    (h : check_winner s = some w) : w = X ∨ w = EMPTY ∨ w = O := by
  rcases check_winner_mem h with h0 | hmem
  · exact Or.inr (Or.inl h0)
  · exact hv w hmem

theorem payoffQ_dual {w p : ℤ} (L : ℕ) (hw : w = X ∨ w = EMPTY ∨ w = O)
    (hp : p = X ∨ p = O) : payoffQ w p L = -payoffQ w (-p) L := by
  rcases hw with h | h | h <;> rcases hp with h2 | h2 <;>
    subst h <;> subst h2 <;> norm_num [payoffQ, X, O, EMPTY]

/-- Zero-sum duality: swapping the root player and the min/max role
negates the plain value. -/
theorem plainValue_dual :
    ∀ (fuel : ℕ) (s : GameState) (isMax : Bool) (level : ℕ) (player : ℤ),
    validCells s → (player = X ∨ player = O) →
    plainValue player fuel s isMax level =
      -plainValue (-player) fuel s (!isMax) level := by
  intro fuel
  induction fuel with
  | zero =>
    intro s isMax level player _ _
    simp [plainValue]
  | succ fuel ih =>
    intro s isMax level player hv hp
    by_cases hterm : nextMoves s = []
    · rw [plainValue_terminal hterm, plainValue_terminal hterm]
      cases hcw : check_winner s with
      | none =>
        simp only [Option.getD_none]
        exact payoffQ_dual level (Or.inr (Or.inl rfl)) hp
      | some w =>
        simp only [Option.getD_some]
        exact payoffQ_dual level (winner_values hv hcw) hp
    · have hchild : ∀ c ∈ nextMoves s, ∀ (m : Bool),
          plainValue player fuel c m (level + 1) =
            -plainValue (-player) fuel c (!m) (level + 1) :=
        fun c hc m => ih c m (level + 1) player (validCells_child hc hv) hp
      cases isMax with
      | true =>
        rw [plainValue_max hterm]
        have h2 : plainValue (-player) (fuel + 1) s (!true) level =
            ((nextMoves s).map
              (fun c => plainValue (-player) fuel c true (level + 1))).foldl
              min 1000 := by
          rw [show (!true) = false from rfl, plainValue_min hterm]
        rw [h2, neg_foldl_min, List.map_map]
        congr 1
        apply List.map_congr_left
        intro c hc
        simp only [Function.comp_apply]
        exact hchild c hc false
      | false =>
        rw [plainValue_min hterm]
        have h2 : plainValue (-player) (fuel + 1) s (!false) level =
            ((nextMoves s).map
              (fun c => plainValue (-player) fuel c false (level + 1))).foldl
              max (-1000) := by
          rw [show (!false) = true from rfl, plainValue_max hterm]
        rw [h2, neg_foldl_max, List.map_map, neg_neg]
        congr 1
        apply List.map_congr_left
        intro c hc
        simp only [Function.comp_apply]
        exact hchild c hc true

/-- The plain value does not depend on the fuel once the fuel exceeds the
number of empty cells. -/
theorem plainValue_fuel_congr (player : ℤ) :
    ∀ (f1 f2 : ℕ) (s : GameState) (isMax : Bool) (level : ℕ),
    s.length = 9 → numEmpty s < f1 → numEmpty s < f2 →
    plainValue player f1 s isMax level = plainValue player f2 s isMax level := by
  intro f1
  induction f1 with
  | zero =>
    intro f2 s _ _ _ h1 _
    exact absurd h1 (Nat.not_lt_zero _)
  | succ f1 ih =>
    intro f2 s isMax level hlen h1 h2
    cases f2 with
    | zero => exact absurd h2 (Nat.not_lt_zero _)
    | succ f2 =>
      by_cases hterm : nextMoves s = []
      · rw [plainValue_terminal hterm, plainValue_terminal hterm]
      · have hkid : ∀ c ∈ nextMoves s, c.length = 9 ∧ numEmpty c + 1 = numEmpty s :=
          fun c hc => ⟨by rw [length_child hc, hlen], numEmpty_child hlen hc⟩
        cases isMax with
        | true =>
          rw [plainValue_max hterm, plainValue_max hterm]
          congr 1
          apply List.map_congr_left
          intro c hc
          exact ih f2 c false (level + 1) (hkid c hc).1
            (by have := (hkid c hc).2; omega) (by have := (hkid c hc).2; omega)
        | false =>
          rw [plainValue_min hterm, plainValue_min hterm]
          congr 1
          apply List.map_congr_left
          intro c hc
          exact ih f2 c true (level + 1) (hkid c hc).1
            (by have := (hkid c hc).2; omega) (by have := (hkid c hc).2; omega)

theorem shiftQ_zero : shiftQ 0 = 0 := by norm_num [shiftQ]

theorem shiftQ_eq_zero {x : ℚ} (h : shiftQ x = 0) : x = 0 := by
  rw [shiftQ, div_eq_zero_iff] at h
  rcases h with h | h
  · exact h
  · have := abs_nonneg x
    linarith

theorem shiftQ_mono : Monotone shiftQ := by
  intro x y hxy
  rcases le_total 0 x with hx | hx
  · have hy : 0 ≤ y := le_trans hx hxy
    rw [shiftQ, shiftQ, abs_of_nonneg hx, abs_of_nonneg hy,
      div_le_div_iff (by linarith) (by linarith)]
    nlinarith
  · rcases le_total 0 y with hy | hy
    · have hd1 : (0 : ℚ) < 1 + |x| := by positivity
      have hd2 : (0 : ℚ) < 1 + |y| := by positivity
      have h1 : shiftQ x ≤ 0 := by
        rw [shiftQ]
        exact div_nonpos_of_nonpos_of_nonneg hx (le_of_lt hd1)
      have h2 : 0 ≤ shiftQ y := by
        rw [shiftQ]
        exact div_nonneg hy (le_of_lt hd2)
      linarith
    · rw [shiftQ, shiftQ, abs_of_nonpos hx, abs_of_nonpos hy,
        div_le_div_iff (by linarith) (by linarith)]
      nlinarith

theorem shiftQ_neg_one : shiftQ (-1) = -(1 / 2) := by norm_num [shiftQ]

theorem shiftQ_one : shiftQ 1 = 1 / 2 := by norm_num [shiftQ]

/-- `shiftQ` carries the payoff at depth `L ≥ 1` to the payoff at depth
`L + 1`. -/
theorem payoffQ_shift (w p : ℤ) {L : ℕ} (hL : 1 ≤ L) :
    payoffQ w p (L + 1) = shiftQ (payoffQ w p L) := by
  have hL0 : (0 : ℚ) < (L : ℚ) := by exact_mod_cast hL
  have hLne : (L : ℚ) ≠ 0 := ne_of_gt hL0
  have hL1 : ((L : ℚ) + 1) ≠ 0 := by positivity
  rw [payoffQ, payoffQ, shiftQ]
  split_ifs
  · rw [abs_of_pos (by positivity)]
    push_cast
    rw [div_div, div_eq_div_iff (by positivity) (by positivity)]
    field_simp
  · norm_num
  · rw [abs_neg, abs_of_pos (by positivity)]
    push_cast
    rw [neg_div, neg_inj, div_div, div_eq_div_iff (by positivity) (by positivity)]
    field_simp

/-- Shifting the root depth by one applies `shiftQ` to the plain value:
the whole payoff scale is rescaled by one level. -/
theorem plainValue_shift (player : ℤ) :
    ∀ (fuel : ℕ) (s : GameState) (isMax : Bool) (level : ℕ),
    s.length = 9 → numEmpty s < fuel → (1 ≤ level ∨ nextMoves s ≠ []) →
    plainValue player fuel s isMax (level + 1) =
      shiftQ (plainValue player fuel s isMax level) := by
  intro fuel
  induction fuel with
  | zero =>
    intro s _ _ _ h _
    exact absurd h (Nat.not_lt_zero _)
  | succ fuel ih =>
    intro s isMax level hlen hfuel hlv
    by_cases hterm : nextMoves s = []
    · have hlevel : 1 ≤ level := hlv.resolve_right (not_not_intro hterm)
      rw [plainValue_terminal hterm, plainValue_terminal hterm,
        payoffQ_shift _ _ hlevel]
    · have hkid : ∀ c ∈ nextMoves s, c.length = 9 ∧ numEmpty c < fuel := by
        intro c hc
        refine ⟨by rw [length_child hc, hlen], ?_⟩
        have := numEmpty_child hlen hc
        omega
      have hrange : ∀ (m : Bool), ∀ v ∈ (nextMoves s).map
          (fun c => plainValue player fuel c m (level + 1)),
          -1 ≤ v ∧ v ≤ 1 := by
        intro m v hv
        rcases List.mem_map.mp hv with ⟨c, hc, hvc⟩
        rw [← hvc]
        exact plainValue_range player fuel c m (level + 1) (hkid c hc).1
          (hkid c hc).2 (Or.inl (by omega))
      have hne : ∀ (m : Bool), (nextMoves s).map
          (fun c => plainValue player fuel c m (level + 1)) ≠ [] :=
        fun m h => hterm (List.map_eq_nil.mp h)
      cases isMax with
      | true =>
        rw [plainValue_max hterm, plainValue_max hterm]
        set vs := (nextMoves s).map
          (fun c => plainValue player fuel c false (level + 1)) with hvs
        have hmapne : vs.map shiftQ ≠ [] :=
          fun h => hne false (List.map_eq_nil.mp h)
        have hstep1 : ((nextMoves s).map
            (fun c => plainValue player fuel c false (level + 1 + 1))).foldl
            max (-1000) = (vs.map shiftQ).foldl max (-1000) := by
          rw [hvs, List.map_map]
          congr 1
          apply List.map_congr_left
          intro c hc
          simp only [Function.comp_apply]
          exact ih c false (level + 1) (hkid c hc).1 (hkid c hc).2
            (Or.inl (by omega))
        have habs1 : (vs.map shiftQ).foldl max (-1000) =
            (vs.map shiftQ).foldl max (shiftQ (-1)) := by
          refine foldl_max_absorb hmapne ?_ ?_
          · intro u hu
            rcases List.mem_map.mp hu with ⟨v, hv, huv⟩
            have h1 : shiftQ (-1) ≤ u := by
              rw [← huv]
              exact shiftQ_mono (hrange false v hv).1
            rw [shiftQ_neg_one] at h1
            linarith
          · intro u hu
            rcases List.mem_map.mp hu with ⟨v, hv, huv⟩
            rw [← huv]
            exact shiftQ_mono (hrange false v hv).1
        have habs2 : vs.foldl max (-1000) = vs.foldl max (-1) :=
          foldl_max_absorb (hne false)
            (fun v hv => by have := (hrange false v hv).1; linarith)
            (fun v hv => (hrange false v hv).1)
        rw [hstep1, habs1, ← monotone_foldl_max shiftQ_mono vs (-1), habs2]
      | false =>
        rw [plainValue_min hterm, plainValue_min hterm]
        set vs := (nextMoves s).map
          (fun c => plainValue player fuel c true (level + 1)) with hvs
        have hmapne : vs.map shiftQ ≠ [] :=
          fun h => hne true (List.map_eq_nil.mp h)
        have hstep1 : ((nextMoves s).map
            (fun c => plainValue player fuel c true (level + 1 + 1))).foldl
            min 1000 = (vs.map shiftQ).foldl min 1000 := by
          rw [hvs, List.map_map]
          congr 1
          apply List.map_congr_left
          intro c hc
          simp only [Function.comp_apply]
          exact ih c true (level + 1) (hkid c hc).1 (hkid c hc).2
            (Or.inl (by omega))
        have habs1 : (vs.map shiftQ).foldl min 1000 =
            (vs.map shiftQ).foldl min (shiftQ 1) := by
          refine foldl_min_absorb hmapne ?_ ?_
          · intro u hu
            rcases List.mem_map.mp hu with ⟨v, hv, huv⟩
            have h1 : u ≤ shiftQ 1 := by
              rw [← huv]
              exact shiftQ_mono (hrange true v hv).2
            rw [shiftQ_one] at h1
            linarith
          · intro u hu
            rcases List.mem_map.mp hu with ⟨v, hv, huv⟩
            rw [← huv]
            exact shiftQ_mono (hrange true v hv).2
        have habs2 : vs.foldl min 1000 = vs.foldl min 1 :=
          foldl_min_absorb (hne true)
            (fun v hv => by have := (hrange true v hv).2; linarith)
            (fun v hv => (hrange true v hv).2)
        rw [hstep1, habs1, ← monotone_foldl_min shiftQ_mono vs 1, habs2]

/-! ## The certificate checkers explore exactly the legal moves -/

theorem mem_baseOrd {i : ℕ} : i ∈ baseOrd ↔ i < 9 := by
  constructor
  · intro h
    fin_cases h <;> norm_num
  · intro h
    interval_cases i <;> decide

theorem tacCells_lt {s : GameState} {i : ℕ} (h : i ∈ tacCells s) : i < 9 := by
  rcases List.mem_filterMap.mp h with ⟨c, hc, hf⟩
  fin_cases hc <;> split_ifs at hf <;> simp_all <;> omega

theorem mem_movesA {s c : GameState} (hlen : s.length = 9)
    (hw : check_winner s = none) : c ∈ movesA s ↔ c ∈ nextMoves s := by
  rw [movesA, mem_nextMoves hw]
  constructor
  · intro hc
    rcases List.mem_filterMap.mp hc with ⟨i, hi, hmk⟩
    rw [mkMove] at hmk
    by_cases hz : (s.getD i 0 == 0) = true
    · rw [if_pos hz] at hmk
      exact ⟨i, by rw [hlen]; exact mem_baseOrd.mp hi,
        by exact_mod_cast beq_iff_eq.mp hz,
        (Option.some_injective _ hmk).symm⟩
    · rw [if_neg hz] at hmk
      exact absurd hmk (by simp)
  · rintro ⟨i, hlt, hz, hceq⟩
    refine List.mem_filterMap.mpr
      ⟨i, mem_baseOrd.mpr (by rw [hlen] at hlt; exact hlt), ?_⟩
    rw [mkMove, if_pos (by rw [hz]; rfl), hceq]

theorem mem_movesE {s c : GameState} (hlen : s.length = 9)
    (hw : check_winner s = none) (hc : c ∈ movesE s) : c ∈ nextMoves s := by
  rw [movesE] at hc
  rcases List.mem_filterMap.mp hc with ⟨i, hi, hmk⟩
  have hilt : i < 9 := by
    rcases List.mem_append.mp hi with h | h
    · exact tacCells_lt h
    · exact mem_baseOrd.mp h
  rw [mkMove] at hmk
  by_cases hz : (s.getD i 0 == 0) = true
  · rw [if_pos hz] at hmk
    exact (mem_nextMoves hw).mpr ⟨i, by rw [hlen]; exact hilt,
      by exact_mod_cast beq_iff_eq.mp hz, (Option.some_injective _ hmk).symm⟩
  · rw [if_neg hz] at hmk
    exact absurd hmk (by simp)

/-! ## Soundness of the sign certificates -/

theorem payoffQ_nonpos {w p : ℤ} (L : ℕ) (h : w ≠ p) : payoffQ w p L ≤ 0 := by
  have hpos : (0 : ℚ) ≤ 1 / (L : ℚ) := by positivity
  rw [payoffQ, if_neg h]
  split_ifs
  · exact le_refl 0
  · linarith

theorem payoffQ_nonneg {w p : ℤ} (L : ℕ) (h : w = p ∨ w = EMPTY) :
    0 ≤ payoffQ w p L := by
  have hpos : (0 : ℚ) ≤ 1 / (L : ℚ) := by positivity
  rw [payoffQ]
  split_ifs with h1 h2
  · exact hpos
  · exact le_refl 0
  · rcases h with h | h
    · exact absurd h h1
    · exact absurd h h2

/-- A `true` verdict of `le0` certifies that the plain value is at most
zero. -/
theorem le0_sound (player : ℤ) :
    ∀ (fuel : ℕ) (s : GameState) (isMax : Bool) (level : ℕ),
    s.length = 9 → numEmpty s < fuel → (1 ≤ level ∨ nextMoves s ≠ []) →
    le0 player fuel s isMax = true →
    plainValue player fuel s isMax level ≤ 0 := by
  intro fuel
  induction fuel with
  | zero =>
    intro s _ _ _ h _ _
    exact absurd h (Nat.not_lt_zero _)
  | succ fuel ih =>
    intro s isMax level hlen hfuel hlv hle
    cases hcw : check_winner s with
    | some w =>
      have hterm : nextMoves s = [] :=
        nextMoves_of_decided (by rw [hcw]; exact Option.some_ne_none w)
      rw [le0, hcw] at hle
      have hne : (!(w == player)) = true := hle
      rw [plainValue_terminal hterm, hcw]
      simp only [Option.getD_some]
      apply payoffQ_nonpos
      intro heq
      rw [heq] at hne
      simp at hne
    | none =>
      have hterm : nextMoves s ≠ [] := nextMoves_ne_nil hcw
      have hkid : ∀ c ∈ nextMoves s, c.length = 9 ∧ numEmpty c < fuel := by
        intro c hc
        refine ⟨by rw [length_child hc, hlen], ?_⟩
        have := numEmpty_child hlen hc
        omega
      cases isMax with
      | true =>
        rw [le0, hcw] at hle
        have hall : (movesA s).all (fun c => le0 player fuel c false) = true :=
          hle
        rw [plainValue_max hterm]
        refine foldl_max_le (by norm_num) ?_
        intro v hv
        rcases List.mem_map.mp hv with ⟨c, hc, hvc⟩
        rw [← hvc]
        refine ih c false (level + 1) (hkid c hc).1 (hkid c hc).2
          (Or.inl (by omega)) ?_
        exact List.all_eq_true.mp hall c ((mem_movesA hlen hcw).mpr hc)
      | false =>
        rw [le0, hcw] at hle
        have hany : (movesE s).any (fun c => le0 player fuel c true) = true :=
          hle
        rcases List.any_eq_true.mp hany with ⟨c, hcE, hcle⟩
        have hc : c ∈ nextMoves s := mem_movesE hlen hcw hcE
        rw [plainValue_min hterm]
        refine le_trans (foldl_min_le_of_mem (List.mem_map_of_mem _ hc) 1000) ?_
        exact ih c true (level + 1) (hkid c hc).1 (hkid c hc).2
          (Or.inl (by omega)) hcle

/-- A `true` verdict of `ge0` certifies that the plain value is at least
zero. -/
theorem ge0_sound (player : ℤ) :
    ∀ (fuel : ℕ) (s : GameState) (isMax : Bool) (level : ℕ),
    s.length = 9 → numEmpty s < fuel → (1 ≤ level ∨ nextMoves s ≠ []) →
    ge0 player fuel s isMax = true →
    0 ≤ plainValue player fuel s isMax level := by
  intro fuel
  induction fuel with
  | zero =>
    intro s _ _ _ h _ _
    exact absurd h (Nat.not_lt_zero _)
  | succ fuel ih =>
    intro s isMax level hlen hfuel hlv hle
    cases hcw : check_winner s with
    | some w =>
      have hterm : nextMoves s = [] :=
        nextMoves_of_decided (by rw [hcw]; exact Option.some_ne_none w)
      rw [ge0, hcw] at hle
      have hor : ((w == player) || (w == 0)) = true := hle
      rw [plainValue_terminal hterm, hcw]
      simp only [Option.getD_some]
      apply payoffQ_nonneg
      rcases (Bool.or_eq_true _ _) ▸ hor with h | h
      · exact Or.inl (by exact_mod_cast beq_iff_eq.mp h)
      · exact Or.inr (by exact_mod_cast beq_iff_eq.mp h)
    | none =>
      have hterm : nextMoves s ≠ [] := nextMoves_ne_nil hcw
      have hkid : ∀ c ∈ nextMoves s, c.length = 9 ∧ numEmpty c < fuel := by
        intro c hc
        refine ⟨by rw [length_child hc, hlen], ?_⟩
        have := numEmpty_child hlen hc
        omega
      cases isMax with
      | true =>
        rw [ge0, hcw] at hle
        have hany : (movesE s).any (fun c => ge0 player fuel c false) = true :=
          hle
        rcases List.any_eq_true.mp hany with ⟨c, hcE, hcge⟩
        have hc : c ∈ nextMoves s := mem_movesE hlen hcw hcE
        rw [plainValue_max hterm]
        refine le_trans ?_ (le_foldl_max_of_mem (List.mem_map_of_mem _ hc) _)
        exact ih c false (level + 1) (hkid c hc).1 (hkid c hc).2
          (Or.inl (by omega)) hcge
      | false =>
        rw [ge0, hcw] at hle
        have hall : (movesA s).all (fun c => ge0 player fuel c true) = true :=
          hle
        rw [plainValue_min hterm]
        refine le_foldl_min (by norm_num) ?_
        intro v hv
        rcases List.mem_map.mp hv with ⟨c, hc, hvc⟩
        rw [← hvc]
        refine ih c true (level + 1) (hkid c hc).1 (hkid c hc).2
          (Or.inl (by omega)) ?_
        exact List.all_eq_true.mp hall c ((mem_movesA hlen hcw).mpr hc)

/-! ## The empty board is a draw under optimal play

The two certificate facts `le0_empty` and `ge0_empty` are established by
evaluating the checkers over the game tree.  The evaluation is split into
one lemma per explored subtree (deduplicating transpositions), glued by
the one-step unfolding lemmas below, so that each individual proof is a
small computation. -/

theorem le0_step_max (p : ℤ) (fuel : ℕ) (s : GameState)
    (hcw : check_winner s = none) :
    le0 p (fuel + 1) s true = (movesA s).all (fun c => le0 p fuel c false) := by
  rw [le0, hcw]
  rfl

theorem le0_step_min (p : ℤ) (fuel : ℕ) (s : GameState)
    (hcw : check_winner s = none) :
    le0 p (fuel + 1) s false = (movesE s).any (fun c => le0 p fuel c true) := by
  rw [le0, hcw]
  rfl

theorem ge0_step_max (p : ℤ) (fuel : ℕ) (s : GameState)
    (hcw : check_winner s = none) :
    ge0 p (fuel + 1) s true = (movesE s).any (fun c => ge0 p fuel c false) := by
  rw [ge0, hcw]
  rfl

theorem ge0_step_min (p : ℤ) (fuel : ℕ) (s : GameState)
    (hcw : check_winner s = none) :
    ge0 p (fuel + 1) s false = (movesA s).all (fun c => ge0 p fuel c true) := by
  rw [ge0, hcw]
  rfl

set_option maxRecDepth 20000

set_option maxHeartbeats 4000000

theorem le0w2 : le0 X 7 [1, 0, -1, 0, -1, 0, 0, 0, 0] false = true := by decide

theorem le0w3 : le0 X 7 [1, 0, 0, 0, -1, 0, -1, 0, 0] false = true := by decide

theorem le0w4 : le0 X 7 [1, 0, 0, 0, -1, 0, 0, 0, -1] false = true := by decide

theorem le0w7 : le0 X 5 [1, -1, -1, 0, -1, 0, 0, 1, 0] false = true := by decide

theorem le0w8 : le0 X 5 [1, -1, 0, 0, -1, 0, -1, 1, 0] false = true := by decide

theorem le0w9 : le0 X 5 [1, -1, 0, 0, -1, 0, 0, 1, -1] false = true := by decide

theorem le0w10 : le0 X 5 [1, -1, 0, -1, -1, 0, 0, 1, 0] false = true := by decide

theorem le0w11 : le0 X 5 [1, -1, 0, 0, -1, -1, 0, 1, 0] false = true := by decide

theorem le0w6 : le0 X 6 [1, -1, 0, 0, -1, 0, 0, 1, 0] true = true := by
  rw [show (6 : ℕ) = 5 + 1 from rfl,
    le0_step_max X 5 [1, -1, 0, 0, -1, 0, 0, 1, 0] (by decide),
    show movesA [1, -1, 0, 0, -1, 0, 0, 1, 0] = [[1, -1, -1, 0, -1, 0, 0, 1, 0], [1, -1, 0, 0, -1, 0, -1, 1, 0], [1, -1, 0, 0, -1, 0, 0, 1, -1], [1, -1, 0, -1, -1, 0, 0, 1, 0], [1, -1, 0, 0, -1, -1, 0, 1, 0]] from by decide]
  simp only [List.all_cons, List.all_nil, le0w7, le0w8, le0w9, le0w10, le0w11, Bool.and_true, Bool.true_and, Bool.and_false, Bool.false_and]

theorem le0w5 : le0 X 7 [1, -1, 0, 0, -1, 0, 0, 0, 0] false = true := by
  rw [show (7 : ℕ) = 6 + 1 from rfl,
    le0_step_min X 6 [1, -1, 0, 0, -1, 0, 0, 0, 0] (by decide),
    show movesE [1, -1, 0, 0, -1, 0, 0, 0, 0] = [[1, -1, 0, 0, -1, 0, 0, 1, 0], [1, -1, 1, 0, -1, 0, 0, 0, 0], [1, -1, 0, 0, -1, 0, 1, 0, 0], [1, -1, 0, 0, -1, 0, 0, 0, 1], [1, -1, 0, 1, -1, 0, 0, 0, 0], [1, -1, 0, 0, -1, 1, 0, 0, 0], [1, -1, 0, 0, -1, 0, 0, 1, 0]] from by decide]
  simp only [List.any_cons, List.any_nil, le0w6, Bool.true_or, Bool.or_true, Bool.false_or, Bool.or_false]

theorem le0w14 : le0 X 5 [1, 0, -1, -1, -1, 1, 0, 0, 0] false = true := by decide

theorem le0w15 : le0 X 5 [1, 0, 0, -1, -1, 1, -1, 0, 0] false = true := by decide

theorem le0w16 : le0 X 5 [1, 0, 0, -1, -1, 1, 0, 0, -1] false = true := by decide

theorem le0w17 : le0 X 5 [1, -1, 0, -1, -1, 1, 0, 0, 0] false = true := by decide

theorem le0w18 : le0 X 5 [1, 0, 0, -1, -1, 1, 0, -1, 0] false = true := by decide

theorem le0w13 : le0 X 6 [1, 0, 0, -1, -1, 1, 0, 0, 0] true = true := by
  rw [show (6 : ℕ) = 5 + 1 from rfl,
    le0_step_max X 5 [1, 0, 0, -1, -1, 1, 0, 0, 0] (by decide),
    show movesA [1, 0, 0, -1, -1, 1, 0, 0, 0] = [[1, 0, -1, -1, -1, 1, 0, 0, 0], [1, 0, 0, -1, -1, 1, -1, 0, 0], [1, 0, 0, -1, -1, 1, 0, 0, -1], [1, -1, 0, -1, -1, 1, 0, 0, 0], [1, 0, 0, -1, -1, 1, 0, -1, 0]] from by decide]
  simp only [List.all_cons, List.all_nil, le0w14, le0w15, le0w16, le0w17, le0w18, Bool.and_true, Bool.true_and, Bool.and_false, Bool.false_and]

theorem le0w12 : le0 X 7 [1, 0, 0, -1, -1, 0, 0, 0, 0] false = true := by
  rw [show (7 : ℕ) = 6 + 1 from rfl,
    le0_step_min X 6 [1, 0, 0, -1, -1, 0, 0, 0, 0] (by decide),
    show movesE [1, 0, 0, -1, -1, 0, 0, 0, 0] = [[1, 0, 0, -1, -1, 1, 0, 0, 0], [1, 0, 1, -1, -1, 0, 0, 0, 0], [1, 0, 0, -1, -1, 0, 1, 0, 0], [1, 0, 0, -1, -1, 0, 0, 0, 1], [1, 1, 0, -1, -1, 0, 0, 0, 0], [1, 0, 0, -1, -1, 1, 0, 0, 0], [1, 0, 0, -1, -1, 0, 0, 1, 0]] from by decide]
  simp only [List.any_cons, List.any_nil, le0w13, Bool.true_or, Bool.or_true, Bool.false_or, Bool.or_false]

theorem le0w19 : le0 X 7 [1, 0, 0, 0, -1, -1, 0, 0, 0] false = true := by decide

theorem le0w20 : le0 X 7 [1, 0, 0, 0, -1, 0, 0, -1, 0] false = true := by decide

theorem le0w1 : le0 X 8 [1, 0, 0, 0, -1, 0, 0, 0, 0] true = true := by
  rw [show (8 : ℕ) = 7 + 1 from rfl,
    le0_step_max X 7 [1, 0, 0, 0, -1, 0, 0, 0, 0] (by decide),
    show movesA [1, 0, 0, 0, -1, 0, 0, 0, 0] = [[1, 0, -1, 0, -1, 0, 0, 0, 0], [1, 0, 0, 0, -1, 0, -1, 0, 0], [1, 0, 0, 0, -1, 0, 0, 0, -1], [1, -1, 0, 0, -1, 0, 0, 0, 0], [1, 0, 0, -1, -1, 0, 0, 0, 0], [1, 0, 0, 0, -1, -1, 0, 0, 0], [1, 0, 0, 0, -1, 0, 0, -1, 0]] from by decide]
  simp only [List.all_cons, List.all_nil, le0w2, le0w3, le0w4, le0w5, le0w12, le0w19, le0w20, Bool.and_true, Bool.true_and, Bool.and_false, Bool.false_and]

theorem le0w0 : le0 X 9 [0, 0, 0, 0, -1, 0, 0, 0, 0] false = true := by
  rw [show (9 : ℕ) = 8 + 1 from rfl,
    le0_step_min X 8 [0, 0, 0, 0, -1, 0, 0, 0, 0] (by decide),
    show movesE [0, 0, 0, 0, -1, 0, 0, 0, 0] = [[1, 0, 0, 0, -1, 0, 0, 0, 0], [0, 0, 1, 0, -1, 0, 0, 0, 0], [0, 0, 0, 0, -1, 0, 1, 0, 0], [0, 0, 0, 0, -1, 0, 0, 0, 1], [0, 1, 0, 0, -1, 0, 0, 0, 0], [0, 0, 0, 1, -1, 0, 0, 0, 0], [0, 0, 0, 0, -1, 1, 0, 0, 0], [0, 0, 0, 0, -1, 0, 0, 1, 0]] from by decide]
  simp only [List.any_cons, List.any_nil, le0w1, Bool.true_or, Bool.or_true, Bool.false_or, Bool.or_false]

theorem le0w23 : le0 X 7 [-1, 0, -1, 0, 1, 0, 0, 0, 0] false = true := by decide

theorem le0w24 : le0 X 7 [-1, 0, 0, 0, 1, 0, -1, 0, 0] false = true := by decide

theorem le0w26 : le0 X 6 [-1, 0, 1, 0, 1, 0, 0, 0, -1] true = false := by decide

theorem le0w27 : le0 X 6 [-1, 0, 0, 0, 1, 0, 1, 0, -1] true = false := by decide

theorem le0w28 : le0 X 6 [-1, 1, 0, 0, 1, 0, 0, 0, -1] true = true := by decide

theorem le0w25 : le0 X 7 [-1, 0, 0, 0, 1, 0, 0, 0, -1] false = true := by
  rw [show (7 : ℕ) = 6 + 1 from rfl,
    le0_step_min X 6 [-1, 0, 0, 0, 1, 0, 0, 0, -1] (by decide),
    show movesE [-1, 0, 0, 0, 1, 0, 0, 0, -1] = [[-1, 0, 1, 0, 1, 0, 0, 0, -1], [-1, 0, 0, 0, 1, 0, 1, 0, -1], [-1, 1, 0, 0, 1, 0, 0, 0, -1], [-1, 0, 0, 1, 1, 0, 0, 0, -1], [-1, 0, 0, 0, 1, 1, 0, 0, -1], [-1, 0, 0, 0, 1, 0, 0, 1, -1]] from by decide]
  simp only [List.any_cons, List.any_nil, le0w26, le0w27, le0w28, Bool.true_or, Bool.or_true, Bool.false_or, Bool.or_false]

theorem le0w29 : le0 X 7 [-1, -1, 0, 0, 1, 0, 0, 0, 0] false = true := by decide

theorem le0w30 : le0 X 7 [-1, 0, 0, -1, 1, 0, 0, 0, 0] false = true := by decide

theorem le0w31 : le0 X 7 [-1, 0, 0, 0, 1, -1, 0, 0, 0] false = true := by decide

theorem le0w33 : le0 X 6 [-1, 0, 1, 0, 1, 0, 0, -1, 0] true = false := by decide

theorem le0w34 : le0 X 6 [-1, 0, 0, 0, 1, 0, 1, -1, 0] true = true := by decide

theorem le0w32 : le0 X 7 [-1, 0, 0, 0, 1, 0, 0, -1, 0] false = true := by
  rw [show (7 : ℕ) = 6 + 1 from rfl,
    le0_step_min X 6 [-1, 0, 0, 0, 1, 0, 0, -1, 0] (by decide),
    show movesE [-1, 0, 0, 0, 1, 0, 0, -1, 0] = [[-1, 0, 1, 0, 1, 0, 0, -1, 0], [-1, 0, 0, 0, 1, 0, 1, -1, 0], [-1, 0, 0, 0, 1, 0, 0, -1, 1], [-1, 1, 0, 0, 1, 0, 0, -1, 0], [-1, 0, 0, 1, 1, 0, 0, -1, 0], [-1, 0, 0, 0, 1, 1, 0, -1, 0]] from by decide]
  simp only [List.any_cons, List.any_nil, le0w33, le0w34, Bool.true_or, Bool.or_true, Bool.false_or, Bool.or_false]

theorem le0w22 : le0 X 8 [-1, 0, 0, 0, 1, 0, 0, 0, 0] true = true := by
  rw [show (8 : ℕ) = 7 + 1 from rfl,
    le0_step_max X 7 [-1, 0, 0, 0, 1, 0, 0, 0, 0] (by decide),
    show movesA [-1, 0, 0, 0, 1, 0, 0, 0, 0] = [[-1, 0, -1, 0, 1, 0, 0, 0, 0], [-1, 0, 0, 0, 1, 0, -1, 0, 0], [-1, 0, 0, 0, 1, 0, 0, 0, -1], [-1, -1, 0, 0, 1, 0, 0, 0, 0], [-1, 0, 0, -1, 1, 0, 0, 0, 0], [-1, 0, 0, 0, 1, -1, 0, 0, 0], [-1, 0, 0, 0, 1, 0, 0, -1, 0]] from by decide]
  simp only [List.all_cons, List.all_nil, le0w23, le0w24, le0w25, le0w29, le0w30, le0w31, le0w32, Bool.and_true, Bool.true_and, Bool.and_false, Bool.false_and]

theorem le0w21 : le0 X 9 [-1, 0, 0, 0, 0, 0, 0, 0, 0] false = true := by
  rw [show (9 : ℕ) = 8 + 1 from rfl,
    le0_step_min X 8 [-1, 0, 0, 0, 0, 0, 0, 0, 0] (by decide),
    show movesE [-1, 0, 0, 0, 0, 0, 0, 0, 0] = [[-1, 0, 0, 0, 1, 0, 0, 0, 0], [-1, 0, 1, 0, 0, 0, 0, 0, 0], [-1, 0, 0, 0, 0, 0, 1, 0, 0], [-1, 0, 0, 0, 0, 0, 0, 0, 1], [-1, 1, 0, 0, 0, 0, 0, 0, 0], [-1, 0, 0, 1, 0, 0, 0, 0, 0], [-1, 0, 0, 0, 0, 1, 0, 0, 0], [-1, 0, 0, 0, 0, 0, 0, 1, 0]] from by decide]
  simp only [List.any_cons, List.any_nil, le0w22, Bool.true_or, Bool.or_true, Bool.false_or, Bool.or_false]

theorem le0w38 : le0 X 6 [1, 0, -1, 0, 1, 0, -1, 0, 0] true = false := by decide

theorem le0w39 : le0 X 6 [0, 0, -1, 0, 1, 0, -1, 0, 1] true = false := by decide

theorem le0w40 : le0 X 6 [0, 1, -1, 0, 1, 0, -1, 0, 0] true = true := by decide

theorem le0w37 : le0 X 7 [0, 0, -1, 0, 1, 0, -1, 0, 0] false = true := by
  rw [show (7 : ℕ) = 6 + 1 from rfl,
    le0_step_min X 6 [0, 0, -1, 0, 1, 0, -1, 0, 0] (by decide),
    show movesE [0, 0, -1, 0, 1, 0, -1, 0, 0] = [[1, 0, -1, 0, 1, 0, -1, 0, 0], [0, 0, -1, 0, 1, 0, -1, 0, 1], [0, 1, -1, 0, 1, 0, -1, 0, 0], [0, 0, -1, 1, 1, 0, -1, 0, 0], [0, 0, -1, 0, 1, 1, -1, 0, 0], [0, 0, -1, 0, 1, 0, -1, 1, 0]] from by decide]
  simp only [List.any_cons, List.any_nil, le0w38, le0w39, le0w40, Bool.true_or, Bool.or_true, Bool.false_or, Bool.or_false]

theorem le0w41 : le0 X 7 [0, 0, -1, 0, 1, 0, 0, 0, -1] false = true := by decide

theorem le0w42 : le0 X 7 [0, -1, -1, 0, 1, 0, 0, 0, 0] false = true := by decide

theorem le0w43 : le0 X 7 [0, 0, -1, -1, 1, 0, 0, 0, 0] false = true := by decide

theorem le0w44 : le0 X 7 [0, 0, -1, 0, 1, -1, 0, 0, 0] false = true := by decide

theorem le0w46 : le0 X 6 [1, 0, -1, 0, 1, 0, 0, -1, 0] true = false := by decide

theorem le0w48 : le0 X 5 [-1, 0, -1, 0, 1, 0, 1, -1, 0] false = true := by decide

theorem le0w49 : le0 X 5 [0, 0, -1, 0, 1, 0, 1, -1, -1] false = true := by decide

theorem le0w50 : le0 X 5 [0, -1, -1, 0, 1, 0, 1, -1, 0] false = true := by decide

theorem le0w51 : le0 X 5 [0, 0, -1, -1, 1, 0, 1, -1, 0] false = true := by decide

theorem le0w52 : le0 X 5 [0, 0, -1, 0, 1, -1, 1, -1, 0] false = true := by decide

theorem le0w47 : le0 X 6 [0, 0, -1, 0, 1, 0, 1, -1, 0] true = true := by
  rw [show (6 : ℕ) = 5 + 1 from rfl,
    le0_step_max X 5 [0, 0, -1, 0, 1, 0, 1, -1, 0] (by decide),
    show movesA [0, 0, -1, 0, 1, 0, 1, -1, 0] = [[-1, 0, -1, 0, 1, 0, 1, -1, 0], [0, 0, -1, 0, 1, 0, 1, -1, -1], [0, -1, -1, 0, 1, 0, 1, -1, 0], [0, 0, -1, -1, 1, 0, 1, -1, 0], [0, 0, -1, 0, 1, -1, 1, -1, 0]] from by decide]
  simp only [List.all_cons, List.all_nil, le0w48, le0w49, le0w50, le0w51, le0w52, Bool.and_true, Bool.true_and, Bool.and_false, Bool.false_and]

theorem le0w45 : le0 X 7 [0, 0, -1, 0, 1, 0, 0, -1, 0] false = true := by
  rw [show (7 : ℕ) = 6 + 1 from rfl,
    le0_step_min X 6 [0, 0, -1, 0, 1, 0, 0, -1, 0] (by decide),
    show movesE [0, 0, -1, 0, 1, 0, 0, -1, 0] = [[1, 0, -1, 0, 1, 0, 0, -1, 0], [0, 0, -1, 0, 1, 0, 1, -1, 0], [0, 0, -1, 0, 1, 0, 0, -1, 1], [0, 1, -1, 0, 1, 0, 0, -1, 0], [0, 0, -1, 1, 1, 0, 0, -1, 0], [0, 0, -1, 0, 1, 1, 0, -1, 0]] from by decide]
  simp only [List.any_cons, List.any_nil, le0w46, le0w47, Bool.true_or, Bool.or_true, Bool.false_or, Bool.or_false]

theorem le0w36 : le0 X 8 [0, 0, -1, 0, 1, 0, 0, 0, 0] true = true := by
  rw [show (8 : ℕ) = 7 + 1 from rfl,
    le0_step_max X 7 [0, 0, -1, 0, 1, 0, 0, 0, 0] (by decide),
    show movesA [0, 0, -1, 0, 1, 0, 0, 0, 0] = [[-1, 0, -1, 0, 1, 0, 0, 0, 0], [0, 0, -1, 0, 1, 0, -1, 0, 0], [0, 0, -1, 0, 1, 0, 0, 0, -1], [0, -1, -1, 0, 1, 0, 0, 0, 0], [0, 0, -1, -1, 1, 0, 0, 0, 0], [0, 0, -1, 0, 1, -1, 0, 0, 0], [0, 0, -1, 0, 1, 0, 0, -1, 0]] from by decide]
  simp only [List.all_cons, List.all_nil, le0w23, le0w37, le0w41, le0w42, le0w43, le0w44, le0w45, Bool.and_true, Bool.true_and, Bool.and_false, Bool.false_and]

theorem le0w35 : le0 X 9 [0, 0, -1, 0, 0, 0, 0, 0, 0] false = true := by
  rw [show (9 : ℕ) = 8 + 1 from rfl,
    le0_step_min X 8 [0, 0, -1, 0, 0, 0, 0, 0, 0] (by decide),
    show movesE [0, 0, -1, 0, 0, 0, 0, 0, 0] = [[0, 0, -1, 0, 1, 0, 0, 0, 0], [1, 0, -1, 0, 0, 0, 0, 0, 0], [0, 0, -1, 0, 0, 0, 1, 0, 0], [0, 0, -1, 0, 0, 0, 0, 0, 1], [0, 1, -1, 0, 0, 0, 0, 0, 0], [0, 0, -1, 1, 0, 0, 0, 0, 0], [0, 0, -1, 0, 0, 1, 0, 0, 0], [0, 0, -1, 0, 0, 0, 0, 1, 0]] from by decide]
  simp only [List.any_cons, List.any_nil, le0w36, Bool.true_or, Bool.or_true, Bool.false_or, Bool.or_false]

theorem le0w55 : le0 X 7 [0, 0, 0, 0, 1, 0, -1, 0, -1] false = true := by decide

theorem le0w56 : le0 X 7 [0, -1, 0, 0, 1, 0, -1, 0, 0] false = true := by decide

theorem le0w57 : le0 X 7 [0, 0, 0, -1, 1, 0, -1, 0, 0] false = true := by decide

theorem le0w59 : le0 X 6 [1, 0, 0, 0, 1, -1, -1, 0, 0] true = false := by decide

theorem le0w61 : le0 X 5 [-1, 0, 1, 0, 1, -1, -1, 0, 0] false = true := by decide

theorem le0w62 : le0 X 5 [0, 0, 1, 0, 1, -1, -1, 0, -1] false = true := by decide

theorem le0w63 : le0 X 5 [0, -1, 1, 0, 1, -1, -1, 0, 0] false = true := by decide

theorem le0w64 : le0 X 5 [0, 0, 1, -1, 1, -1, -1, 0, 0] false = true := by decide

theorem le0w65 : le0 X 5 [0, 0, 1, 0, 1, -1, -1, -1, 0] false = true := by decide

theorem le0w60 : le0 X 6 [0, 0, 1, 0, 1, -1, -1, 0, 0] true = true := by
  rw [show (6 : ℕ) = 5 + 1 from rfl,
    le0_step_max X 5 [0, 0, 1, 0, 1, -1, -1, 0, 0] (by decide),
    show movesA [0, 0, 1, 0, 1, -1, -1, 0, 0] = [[-1, 0, 1, 0, 1, -1, -1, 0, 0], [0, 0, 1, 0, 1, -1, -1, 0, -1], [0, -1, 1, 0, 1, -1, -1, 0, 0], [0, 0, 1, -1, 1, -1, -1, 0, 0], [0, 0, 1, 0, 1, -1, -1, -1, 0]] from by decide]
  simp only [List.all_cons, List.all_nil, le0w61, le0w62, le0w63, le0w64, le0w65, Bool.and_true, Bool.true_and, Bool.and_false, Bool.false_and]

theorem le0w58 : le0 X 7 [0, 0, 0, 0, 1, -1, -1, 0, 0] false = true := by
  rw [show (7 : ℕ) = 6 + 1 from rfl,
    le0_step_min X 6 [0, 0, 0, 0, 1, -1, -1, 0, 0] (by decide),
    show movesE [0, 0, 0, 0, 1, -1, -1, 0, 0] = [[1, 0, 0, 0, 1, -1, -1, 0, 0], [0, 0, 1, 0, 1, -1, -1, 0, 0], [0, 0, 0, 0, 1, -1, -1, 0, 1], [0, 1, 0, 0, 1, -1, -1, 0, 0], [0, 0, 0, 1, 1, -1, -1, 0, 0], [0, 0, 0, 0, 1, -1, -1, 1, 0]] from by decide]
  simp only [List.any_cons, List.any_nil, le0w59, le0w60, Bool.true_or, Bool.or_true, Bool.false_or, Bool.or_false]

theorem le0w66 : le0 X 7 [0, 0, 0, 0, 1, 0, -1, -1, 0] false = true := by decide

theorem le0w54 : le0 X 8 [0, 0, 0, 0, 1, 0, -1, 0, 0] true = true := by
  rw [show (8 : ℕ) = 7 + 1 from rfl,
    le0_step_max X 7 [0, 0, 0, 0, 1, 0, -1, 0, 0] (by decide),
    show movesA [0, 0, 0, 0, 1, 0, -1, 0, 0] = [[-1, 0, 0, 0, 1, 0, -1, 0, 0], [0, 0, -1, 0, 1, 0, -1, 0, 0], [0, 0, 0, 0, 1, 0, -1, 0, -1], [0, -1, 0, 0, 1, 0, -1, 0, 0], [0, 0, 0, -1, 1, 0, -1, 0, 0], [0, 0, 0, 0, 1, -1, -1, 0, 0], [0, 0, 0, 0, 1, 0, -1, -1, 0]] from by decide]
  simp only [List.all_cons, List.all_nil, le0w24, le0w37, le0w55, le0w56, le0w57, le0w58, le0w66, Bool.and_true, Bool.true_and, Bool.and_false, Bool.false_and]

theorem le0w53 : le0 X 9 [0, 0, 0, 0, 0, 0, -1, 0, 0] false = true := by
  rw [show (9 : ℕ) = 8 + 1 from rfl,
    le0_step_min X 8 [0, 0, 0, 0, 0, 0, -1, 0, 0] (by decide),
    show movesE [0, 0, 0, 0, 0, 0, -1, 0, 0] = [[0, 0, 0, 0, 1, 0, -1, 0, 0], [1, 0, 0, 0, 0, 0, -1, 0, 0], [0, 0, 1, 0, 0, 0, -1, 0, 0], [0, 0, 0, 0, 0, 0, -1, 0, 1], [0, 1, 0, 0, 0, 0, -1, 0, 0], [0, 0, 0, 1, 0, 0, -1, 0, 0], [0, 0, 0, 0, 0, 1, -1, 0, 0], [0, 0, 0, 0, 0, 0, -1, 1, 0]] from by decide]
  simp only [List.any_cons, List.any_nil, le0w54, Bool.true_or, Bool.or_true, Bool.false_or, Bool.or_false]

theorem le0w71 : le0 X 5 [1, -1, -1, 0, 1, 0, 0, 0, -1] false = true := by decide

theorem le0w72 : le0 X 5 [1, -1, 0, 0, 1, 0, -1, 0, -1] false = true := by decide

theorem le0w73 : le0 X 5 [1, -1, 0, -1, 1, 0, 0, 0, -1] false = true := by decide

theorem le0w74 : le0 X 5 [1, -1, 0, 0, 1, -1, 0, 0, -1] false = true := by decide

theorem le0w75 : le0 X 5 [1, -1, 0, 0, 1, 0, 0, -1, -1] false = true := by decide

theorem le0w70 : le0 X 6 [1, -1, 0, 0, 1, 0, 0, 0, -1] true = true := by
  rw [show (6 : ℕ) = 5 + 1 from rfl,
    le0_step_max X 5 [1, -1, 0, 0, 1, 0, 0, 0, -1] (by decide),
    show movesA [1, -1, 0, 0, 1, 0, 0, 0, -1] = [[1, -1, -1, 0, 1, 0, 0, 0, -1], [1, -1, 0, 0, 1, 0, -1, 0, -1], [1, -1, 0, -1, 1, 0, 0, 0, -1], [1, -1, 0, 0, 1, -1, 0, 0, -1], [1, -1, 0, 0, 1, 0, 0, -1, -1]] from by decide]
  simp only [List.all_cons, List.all_nil, le0w71, le0w72, le0w73, le0w74, le0w75, Bool.and_true, Bool.true_and, Bool.and_false, Bool.false_and]

theorem le0w69 : le0 X 7 [0, -1, 0, 0, 1, 0, 0, 0, -1] false = true := by
  rw [show (7 : ℕ) = 6 + 1 from rfl,
    le0_step_min X 6 [0, -1, 0, 0, 1, 0, 0, 0, -1] (by decide),
    show movesE [0, -1, 0, 0, 1, 0, 0, 0, -1] = [[1, -1, 0, 0, 1, 0, 0, 0, -1], [0, -1, 1, 0, 1, 0, 0, 0, -1], [0, -1, 0, 0, 1, 0, 1, 0, -1], [0, -1, 0, 1, 1, 0, 0, 0, -1], [0, -1, 0, 0, 1, 1, 0, 0, -1], [0, -1, 0, 0, 1, 0, 0, 1, -1]] from by decide]
  simp only [List.any_cons, List.any_nil, le0w70, Bool.true_or, Bool.or_true, Bool.false_or, Bool.or_false]

theorem le0w78 : le0 X 5 [1, 0, -1, -1, 1, 0, 0, 0, -1] false = true := by decide

theorem le0w79 : le0 X 5 [1, 0, 0, -1, 1, 0, -1, 0, -1] false = true := by decide

theorem le0w80 : le0 X 5 [1, 0, 0, -1, 1, -1, 0, 0, -1] false = true := by decide

theorem le0w81 : le0 X 5 [1, 0, 0, -1, 1, 0, 0, -1, -1] false = true := by decide

theorem le0w77 : le0 X 6 [1, 0, 0, -1, 1, 0, 0, 0, -1] true = true := by
  rw [show (6 : ℕ) = 5 + 1 from rfl,
    le0_step_max X 5 [1, 0, 0, -1, 1, 0, 0, 0, -1] (by decide),
    show movesA [1, 0, 0, -1, 1, 0, 0, 0, -1] = [[1, 0, -1, -1, 1, 0, 0, 0, -1], [1, 0, 0, -1, 1, 0, -1, 0, -1], [1, -1, 0, -1, 1, 0, 0, 0, -1], [1, 0, 0, -1, 1, -1, 0, 0, -1], [1, 0, 0, -1, 1, 0, 0, -1, -1]] from by decide]
  simp only [List.all_cons, List.all_nil, le0w78, le0w79, le0w73, le0w80, le0w81, Bool.and_true, Bool.true_and, Bool.and_false, Bool.false_and]

theorem le0w76 : le0 X 7 [0, 0, 0, -1, 1, 0, 0, 0, -1] false = true := by
  rw [show (7 : ℕ) = 6 + 1 from rfl,
    le0_step_min X 6 [0, 0, 0, -1, 1, 0, 0, 0, -1] (by decide),
    show movesE [0, 0, 0, -1, 1, 0, 0, 0, -1] = [[1, 0, 0, -1, 1, 0, 0, 0, -1], [0, 0, 1, -1, 1, 0, 0, 0, -1], [0, 0, 0, -1, 1, 0, 1, 0, -1], [0, 1, 0, -1, 1, 0, 0, 0, -1], [0, 0, 0, -1, 1, 1, 0, 0, -1], [0, 0, 0, -1, 1, 0, 0, 1, -1]] from by decide]
  simp only [List.any_cons, List.any_nil, le0w77, Bool.true_or, Bool.or_true, Bool.false_or, Bool.or_false]

theorem le0w82 : le0 X 7 [0, 0, 0, 0, 1, -1, 0, 0, -1] false = true := by decide

theorem le0w83 : le0 X 7 [0, 0, 0, 0, 1, 0, 0, -1, -1] false = true := by decide

theorem le0w68 : le0 X 8 [0, 0, 0, 0, 1, 0, 0, 0, -1] true = true := by
  rw [show (8 : ℕ) = 7 + 1 from rfl,
    le0_step_max X 7 [0, 0, 0, 0, 1, 0, 0, 0, -1] (by decide),
    show movesA [0, 0, 0, 0, 1, 0, 0, 0, -1] = [[-1, 0, 0, 0, 1, 0, 0, 0, -1], [0, 0, -1, 0, 1, 0, 0, 0, -1], [0, 0, 0, 0, 1, 0, -1, 0, -1], [0, -1, 0, 0, 1, 0, 0, 0, -1], [0, 0, 0, -1, 1, 0, 0, 0, -1], [0, 0, 0, 0, 1, -1, 0, 0, -1], [0, 0, 0, 0, 1, 0, 0, -1, -1]] from by decide]
  simp only [List.all_cons, List.all_nil, le0w25, le0w41, le0w55, le0w69, le0w76, le0w82, le0w83, Bool.and_true, Bool.true_and, Bool.and_false, Bool.false_and]

theorem le0w67 : le0 X 9 [0, 0, 0, 0, 0, 0, 0, 0, -1] false = true := by
  rw [show (9 : ℕ) = 8 + 1 from rfl,
    le0_step_min X 8 [0, 0, 0, 0, 0, 0, 0, 0, -1] (by decide),
    show movesE [0, 0, 0, 0, 0, 0, 0, 0, -1] = [[0, 0, 0, 0, 1, 0, 0, 0, -1], [1, 0, 0, 0, 0, 0, 0, 0, -1], [0, 0, 1, 0, 0, 0, 0, 0, -1], [0, 0, 0, 0, 0, 0, 1, 0, -1], [0, 1, 0, 0, 0, 0, 0, 0, -1], [0, 0, 0, 1, 0, 0, 0, 0, -1], [0, 0, 0, 0, 0, 1, 0, 0, -1], [0, 0, 0, 0, 0, 0, 0, 1, -1]] from by decide]
  simp only [List.any_cons, List.any_nil, le0w68, Bool.true_or, Bool.or_true, Bool.false_or, Bool.or_false]

theorem le0w86 : le0 X 7 [0, -1, 0, -1, 1, 0, 0, 0, 0] false = true := by decide

theorem le0w87 : le0 X 7 [0, -1, 0, 0, 1, -1, 0, 0, 0] false = true := by decide

theorem le0w88 : le0 X 7 [0, -1, 0, 0, 1, 0, 0, -1, 0] false = true := by decide

theorem le0w85 : le0 X 8 [0, -1, 0, 0, 1, 0, 0, 0, 0] true = true := by
  rw [show (8 : ℕ) = 7 + 1 from rfl,
    le0_step_max X 7 [0, -1, 0, 0, 1, 0, 0, 0, 0] (by decide),
    show movesA [0, -1, 0, 0, 1, 0, 0, 0, 0] = [[-1, -1, 0, 0, 1, 0, 0, 0, 0], [0, -1, -1, 0, 1, 0, 0, 0, 0], [0, -1, 0, 0, 1, 0, -1, 0, 0], [0, -1, 0, 0, 1, 0, 0, 0, -1], [0, -1, 0, -1, 1, 0, 0, 0, 0], [0, -1, 0, 0, 1, -1, 0, 0, 0], [0, -1, 0, 0, 1, 0, 0, -1, 0]] from by decide]
  simp only [List.all_cons, List.all_nil, le0w29, le0w42, le0w56, le0w69, le0w86, le0w87, le0w88, Bool.and_true, Bool.true_and, Bool.and_false, Bool.false_and]

theorem le0w84 : le0 X 9 [0, -1, 0, 0, 0, 0, 0, 0, 0] false = true := by
  rw [show (9 : ℕ) = 8 + 1 from rfl,
    le0_step_min X 8 [0, -1, 0, 0, 0, 0, 0, 0, 0] (by decide),
    show movesE [0, -1, 0, 0, 0, 0, 0, 0, 0] = [[0, -1, 0, 0, 1, 0, 0, 0, 0], [1, -1, 0, 0, 0, 0, 0, 0, 0], [0, -1, 1, 0, 0, 0, 0, 0, 0], [0, -1, 0, 0, 0, 0, 1, 0, 0], [0, -1, 0, 0, 0, 0, 0, 0, 1], [0, -1, 0, 1, 0, 0, 0, 0, 0], [0, -1, 0, 0, 0, 1, 0, 0, 0], [0, -1, 0, 0, 0, 0, 0, 1, 0]] from by decide]
  simp only [List.any_cons, List.any_nil, le0w85, Bool.true_or, Bool.or_true, Bool.false_or, Bool.or_false]

theorem le0w91 : le0 X 7 [0, 0, 0, -1, 1, -1, 0, 0, 0] false = true := by decide

theorem le0w92 : le0 X 7 [0, 0, 0, -1, 1, 0, 0, -1, 0] false = true := by decide

theorem le0w90 : le0 X 8 [0, 0, 0, -1, 1, 0, 0, 0, 0] true = true := by
  rw [show (8 : ℕ) = 7 + 1 from rfl,
    le0_step_max X 7 [0, 0, 0, -1, 1, 0, 0, 0, 0] (by decide),
    show movesA [0, 0, 0, -1, 1, 0, 0, 0, 0] = [[-1, 0, 0, -1, 1, 0, 0, 0, 0], [0, 0, -1, -1, 1, 0, 0, 0, 0], [0, 0, 0, -1, 1, 0, -1, 0, 0], [0, 0, 0, -1, 1, 0, 0, 0, -1], [0, -1, 0, -1, 1, 0, 0, 0, 0], [0, 0, 0, -1, 1, -1, 0, 0, 0], [0, 0, 0, -1, 1, 0, 0, -1, 0]] from by decide]
  simp only [List.all_cons, List.all_nil, le0w30, le0w43, le0w57, le0w76, le0w86, le0w91, le0w92, Bool.and_true, Bool.true_and, Bool.and_false, Bool.false_and]

theorem le0w89 : le0 X 9 [0, 0, 0, -1, 0, 0, 0, 0, 0] false = true := by
  rw [show (9 : ℕ) = 8 + 1 from rfl,
    le0_step_min X 8 [0, 0, 0, -1, 0, 0, 0, 0, 0] (by decide),
    show movesE [0, 0, 0, -1, 0, 0, 0, 0, 0] = [[0, 0, 0, -1, 1, 0, 0, 0, 0], [1, 0, 0, -1, 0, 0, 0, 0, 0], [0, 0, 1, -1, 0, 0, 0, 0, 0], [0, 0, 0, -1, 0, 0, 1, 0, 0], [0, 0, 0, -1, 0, 0, 0, 0, 1], [0, 1, 0, -1, 0, 0, 0, 0, 0], [0, 0, 0, -1, 0, 1, 0, 0, 0], [0, 0, 0, -1, 0, 0, 0, 1, 0]] from by decide]
  simp only [List.any_cons, List.any_nil, le0w90, Bool.true_or, Bool.or_true, Bool.false_or, Bool.or_false]

theorem le0w95 : le0 X 7 [0, 0, 0, 0, 1, -1, 0, -1, 0] false = true := by decide

theorem le0w94 : le0 X 8 [0, 0, 0, 0, 1, -1, 0, 0, 0] true = true := by
  rw [show (8 : ℕ) = 7 + 1 from rfl,
    le0_step_max X 7 [0, 0, 0, 0, 1, -1, 0, 0, 0] (by decide),
    show movesA [0, 0, 0, 0, 1, -1, 0, 0, 0] = [[-1, 0, 0, 0, 1, -1, 0, 0, 0], [0, 0, -1, 0, 1, -1, 0, 0, 0], [0, 0, 0, 0, 1, -1, -1, 0, 0], [0, 0, 0, 0, 1, -1, 0, 0, -1], [0, -1, 0, 0, 1, -1, 0, 0, 0], [0, 0, 0, -1, 1, -1, 0, 0, 0], [0, 0, 0, 0, 1, -1, 0, -1, 0]] from by decide]
  simp only [List.all_cons, List.all_nil, le0w31, le0w44, le0w58, le0w82, le0w87, le0w91, le0w95, Bool.and_true, Bool.true_and, Bool.and_false, Bool.false_and]

theorem le0w93 : le0 X 9 [0, 0, 0, 0, 0, -1, 0, 0, 0] false = true := by
  rw [show (9 : ℕ) = 8 + 1 from rfl,
    le0_step_min X 8 [0, 0, 0, 0, 0, -1, 0, 0, 0] (by decide),
    show movesE [0, 0, 0, 0, 0, -1, 0, 0, 0] = [[0, 0, 0, 0, 1, -1, 0, 0, 0], [1, 0, 0, 0, 0, -1, 0, 0, 0], [0, 0, 1, 0, 0, -1, 0, 0, 0], [0, 0, 0, 0, 0, -1, 1, 0, 0], [0, 0, 0, 0, 0, -1, 0, 0, 1], [0, 1, 0, 0, 0, -1, 0, 0, 0], [0, 0, 0, 1, 0, -1, 0, 0, 0], [0, 0, 0, 0, 0, -1, 0, 1, 0]] from by decide]
  simp only [List.any_cons, List.any_nil, le0w94, Bool.true_or, Bool.or_true, Bool.false_or, Bool.or_false]

theorem le0w97 : le0 X 8 [0, 0, 0, 0, 1, 0, 0, -1, 0] true = true := by
  rw [show (8 : ℕ) = 7 + 1 from rfl,
    le0_step_max X 7 [0, 0, 0, 0, 1, 0, 0, -1, 0] (by decide),
    show movesA [0, 0, 0, 0, 1, 0, 0, -1, 0] = [[-1, 0, 0, 0, 1, 0, 0, -1, 0], [0, 0, -1, 0, 1, 0, 0, -1, 0], [0, 0, 0, 0, 1, 0, -1, -1, 0], [0, 0, 0, 0, 1, 0, 0, -1, -1], [0, -1, 0, 0, 1, 0, 0, -1, 0], [0, 0, 0, -1, 1, 0, 0, -1, 0], [0, 0, 0, 0, 1, -1, 0, -1, 0]] from by decide]
  simp only [List.all_cons, List.all_nil, le0w32, le0w45, le0w66, le0w83, le0w88, le0w92, le0w95, Bool.and_true, Bool.true_and, Bool.and_false, Bool.false_and]

theorem le0w96 : le0 X 9 [0, 0, 0, 0, 0, 0, 0, -1, 0] false = true := by
  rw [show (9 : ℕ) = 8 + 1 from rfl,
    le0_step_min X 8 [0, 0, 0, 0, 0, 0, 0, -1, 0] (by decide),
    show movesE [0, 0, 0, 0, 0, 0, 0, -1, 0] = [[0, 0, 0, 0, 1, 0, 0, -1, 0], [1, 0, 0, 0, 0, 0, 0, -1, 0], [0, 0, 1, 0, 0, 0, 0, -1, 0], [0, 0, 0, 0, 0, 0, 1, -1, 0], [0, 0, 0, 0, 0, 0, 0, -1, 1], [0, 1, 0, 0, 0, 0, 0, -1, 0], [0, 0, 0, 1, 0, 0, 0, -1, 0], [0, 0, 0, 0, 0, 1, 0, -1, 0]] from by decide]
  simp only [List.any_cons, List.any_nil, le0w97, Bool.true_or, Bool.or_true, Bool.false_or, Bool.or_false]

theorem le0_empty : le0 X 10 emptyBoard true = true := by
  rw [show (10 : ℕ) = 9 + 1 from rfl,
    le0_step_max X 9 emptyBoard (by decide),
    show movesA emptyBoard = [[0, 0, 0, 0, -1, 0, 0, 0, 0], [-1, 0, 0, 0, 0, 0, 0, 0, 0], [0, 0, -1, 0, 0, 0, 0, 0, 0], [0, 0, 0, 0, 0, 0, -1, 0, 0], [0, 0, 0, 0, 0, 0, 0, 0, -1], [0, -1, 0, 0, 0, 0, 0, 0, 0], [0, 0, 0, -1, 0, 0, 0, 0, 0], [0, 0, 0, 0, 0, -1, 0, 0, 0], [0, 0, 0, 0, 0, 0, 0, -1, 0]] from by decide]
  simp only [List.all_cons, List.all_nil, le0w0, le0w21, le0w35, le0w53, le0w67, le0w84, le0w89, le0w93, le0w96, Bool.and_true, Bool.true_and]

theorem ge0w99 : ge0 X 8 [1, 0, 0, 0, -1, 0, 0, 0, 0] true = true := by decide

theorem ge0w100 : ge0 X 8 [0, 0, 1, 0, -1, 0, 0, 0, 0] true = true := by decide

theorem ge0w101 : ge0 X 8 [0, 0, 0, 0, -1, 0, 1, 0, 0] true = true := by decide

theorem ge0w104 : ge0 X 6 [-1, 0, 1, 0, -1, 0, 0, 0, 1] true = true := by decide

theorem ge0w105 : ge0 X 6 [-1, 0, 0, 0, -1, 0, 1, 0, 1] true = true := by decide

theorem ge0w106 : ge0 X 6 [-1, 1, 0, 0, -1, 0, 0, 0, 1] true = true := by decide

theorem ge0w107 : ge0 X 6 [-1, 0, 0, 1, -1, 0, 0, 0, 1] true = true := by decide

theorem ge0w108 : ge0 X 6 [-1, 0, 0, 0, -1, 1, 0, 0, 1] true = true := by decide

theorem ge0w109 : ge0 X 6 [-1, 0, 0, 0, -1, 0, 0, 1, 1] true = true := by decide

theorem ge0w103 : ge0 X 7 [-1, 0, 0, 0, -1, 0, 0, 0, 1] false = true := by
  rw [show (7 : ℕ) = 6 + 1 from rfl,
    ge0_step_min X 6 [-1, 0, 0, 0, -1, 0, 0, 0, 1] (by decide),
    show movesA [-1, 0, 0, 0, -1, 0, 0, 0, 1] = [[-1, 0, 1, 0, -1, 0, 0, 0, 1], [-1, 0, 0, 0, -1, 0, 1, 0, 1], [-1, 1, 0, 0, -1, 0, 0, 0, 1], [-1, 0, 0, 1, -1, 0, 0, 0, 1], [-1, 0, 0, 0, -1, 1, 0, 0, 1], [-1, 0, 0, 0, -1, 0, 0, 1, 1]] from by decide]
  simp only [List.all_cons, List.all_nil, ge0w104, ge0w105, ge0w106, ge0w107, ge0w108, ge0w109, Bool.and_true, Bool.true_and, Bool.and_false, Bool.false_and]

theorem ge0w102 : ge0 X 8 [0, 0, 0, 0, -1, 0, 0, 0, 1] true = true := by
  rw [show (8 : ℕ) = 7 + 1 from rfl,
    ge0_step_max X 7 [0, 0, 0, 0, -1, 0, 0, 0, 1] (by decide),
    show movesE [0, 0, 0, 0, -1, 0, 0, 0, 1] = [[-1, 0, 0, 0, -1, 0, 0, 0, 1], [0, 0, -1, 0, -1, 0, 0, 0, 1], [0, 0, 0, 0, -1, 0, -1, 0, 1], [0, -1, 0, 0, -1, 0, 0, 0, 1], [0, 0, 0, -1, -1, 0, 0, 0, 1], [0, 0, 0, 0, -1, -1, 0, 0, 1], [0, 0, 0, 0, -1, 0, 0, -1, 1]] from by decide]
  simp only [List.any_cons, List.any_nil, ge0w103, Bool.true_or, Bool.or_true, Bool.false_or, Bool.or_false]

theorem ge0w110 : ge0 X 8 [0, 1, 0, 0, -1, 0, 0, 0, 0] true = true := by decide

theorem ge0w111 : ge0 X 8 [0, 0, 0, 1, -1, 0, 0, 0, 0] true = true := by decide

theorem ge0w112 : ge0 X 8 [0, 0, 0, 0, -1, 1, 0, 0, 0] true = true := by decide

theorem ge0w113 : ge0 X 8 [0, 0, 0, 0, -1, 0, 0, 1, 0] true = true := by decide

theorem ge0w98 : ge0 X 9 [0, 0, 0, 0, -1, 0, 0, 0, 0] false = true := by
  rw [show (9 : ℕ) = 8 + 1 from rfl,
    ge0_step_min X 8 [0, 0, 0, 0, -1, 0, 0, 0, 0] (by decide),
    show movesA [0, 0, 0, 0, -1, 0, 0, 0, 0] = [[1, 0, 0, 0, -1, 0, 0, 0, 0], [0, 0, 1, 0, -1, 0, 0, 0, 0], [0, 0, 0, 0, -1, 0, 1, 0, 0], [0, 0, 0, 0, -1, 0, 0, 0, 1], [0, 1, 0, 0, -1, 0, 0, 0, 0], [0, 0, 0, 1, -1, 0, 0, 0, 0], [0, 0, 0, 0, -1, 1, 0, 0, 0], [0, 0, 0, 0, -1, 0, 0, 1, 0]] from by decide]
  simp only [List.all_cons, List.all_nil, ge0w99, ge0w100, ge0w101, ge0w102, ge0w110, ge0w111, ge0w112, ge0w113, Bool.and_true, Bool.true_and, Bool.and_false, Bool.false_and]

theorem ge0_empty : ge0 X 10 emptyBoard true = true := by
  rw [show (10 : ℕ) = 9 + 1 from rfl,
    ge0_step_max X 9 emptyBoard (by decide),
    show movesE emptyBoard = [[0, 0, 0, 0, -1, 0, 0, 0, 0], [-1, 0, 0, 0, 0, 0, 0, 0, 0], [0, 0, -1, 0, 0, 0, 0, 0, 0], [0, 0, 0, 0, 0, 0, -1, 0, 0], [0, 0, 0, 0, 0, 0, 0, 0, -1], [0, -1, 0, 0, 0, 0, 0, 0, 0], [0, 0, 0, -1, 0, 0, 0, 0, 0], [0, 0, 0, 0, 0, -1, 0, 0, 0], [0, 0, 0, 0, 0, 0, 0, -1, 0]] from by decide]
  simp only [List.any_cons, List.any_nil, ge0w98, Bool.true_or, Bool.or_true, Bool.false_or]


/-- The plain minimax value of the empty board is zero: tic-tac-toe is a
draw under optimal play. -/
theorem emptyBoard_plain_zero : plainValue X 10 emptyBoard true 0 = 0 := by
  have h1 := le0_sound X 10 emptyBoard true 0 (by decide) (by decide)
    (Or.inr (by decide)) le0_empty
  have h2 := ge0_sound X 10 emptyBoard true 0 (by decide) (by decide)
    (Or.inr (by decide)) ge0_empty
  linarith

/-! ## Self-play -/

/-- On a terminal state the root child list is empty, so `find?` yields
nothing and `minimax` returns `None`. -/
theorem minimax_none_of_terminal (t : ℕ → Bool) {s : GameState}
    (h : nextMoves s = []) : minimax t s = none := by
  rw [minimax]
  have hres : minimaxRec t (whos_turn s) 10 0 s true 0 MINV MAXV =
      (leafVal ((check_winner s).getD 0) (whos_turn s) 0, [], 0) := by
    rw [show (10 : ℕ) = 9 + 1 from rfl]
    exact minimaxRec_terminal t (whos_turn s) h
  rw [hres]
  rfl

/-- A move that leaves an empty cell hands the turn to the opposite
player. -/
theorem whos_turn_child_flip {s c : GameState} (hlen : s.length = 9)
    (hc : c ∈ nextMoves s) (hnf : numEmpty c ≠ 0) :
    whos_turn c = -whos_turn s := by
  rcases nextMoves_child hc with ⟨-, i, hlt, hz, hceq⟩
  have hm : whos_turn s ≠ EMPTY :=
    whos_turn_ne_zero hlen (numEmpty_pos_of_empty_cell hlt hz)
  have hcount : numFilled c = numFilled s + 1 := by
    rw [hceq]
    exact numFilled_set hlt hz hm
  have hclen : c.length = 9 := by rw [length_child hc, hlen]
  have hce : numFilled c + numEmpty c = 9 := by
    rw [← hclen]
    exact numFilled_add_numEmpty c
  have hne9 : numFilled c ≠ 9 := by omega
  have hsne9 : numFilled s ≠ 9 := by omega
  rw [whos_turn, whos_turn, if_neg hne9, if_neg hsne9]
  by_cases hp : numFilled s % 2 = 0
  · rw [if_pos hp, if_neg (by omega)]
    norm_num [X, O]
  · rw [if_neg hp, if_pos (by omega)]
    norm_num [X, O]

/-- The self-play invariant: as long as the running state is a draw-valued
position (and a draw if already terminal), optimal play keeps it so, and
the game ends in a decided draw. -/
theorem selfPlay_draw_aux :
    ∀ (n : ℕ) (T : ℕ → ℕ → Bool) (s : GameState),
    s.length = 9 → validCells s → numEmpty s ≤ n →
    (nextMoves s = [] → check_winner s = some EMPTY) →
    (nextMoves s ≠ [] → plainValue (whos_turn s) 10 s true 0 = 0) →
    check_winner (selfPlay T n s) = some EMPTY := by
  intro n
  induction n with
  | zero =>
    intro T s hlen hv hne hterm hplain
    have h0 : numEmpty s = 0 := Nat.le_zero.mp hne
    have hful : ∀ c ∈ s, c ≠ EMPTY := by
      intro c hc hceq
      have : 0 < numEmpty s := List.countP_pos.mpr ⟨c, hc, by rw [hceq]; rfl⟩
      omega
    have hwn : check_winner s ≠ none := check_winner_ne_none_of_full hful
    rw [selfPlay]
    exact hterm (nextMoves_of_decided hwn)
  | succ n ih =>
    intro T s hlen hv hne hterm hplain
    by_cases htm : nextMoves s = []
    · rw [selfPlay, minimax_none_of_terminal (T n) htm]
      exact hterm htm
    · have hval : plainValue (whos_turn s) 10 s true 0 = 0 := hplain htm
      have hgne : get_next_moves (T n) 0 s ≠ [] :=
        fun h => htm (get_next_moves_nil_iff.mp h)
      obtain ⟨c, hmm, hcg, hopt⟩ := minimax_optimal (T n) s hlen hgne
      have hcn : c ∈ nextMoves s := mem_get_next_moves.mp hcg
      have hclen : c.length = 9 := by rw [length_child hcn, hlen]
      have hcemp : numEmpty c + 1 = numEmpty s := numEmpty_child hlen hcn
      have hcvalid : validCells c := validCells_child hcn hv
      have hc0 : plainValue (whos_turn s) 9 c false 1 = 0 := by rw [hopt, hval]
      have hse : numEmpty s ≤ 9 := by
        have := numEmpty_le_length s
        rw [hlen] at this
        exact this
      rw [selfPlay, hmm]
      show check_winner (selfPlay T n c) = some EMPTY
      refine ih T c hclen hcvalid (by omega) ?_ ?_
      · intro hcterm
        have hpv : payoffQ ((check_winner c).getD 0) (whos_turn s) 1 = 0 := by
          rw [← @plainValue_terminal (whos_turn s) 8 c false 1 hcterm]
          exact hc0
        have hw0 : (check_winner c).getD 0 = EMPTY :=
          payoffQ_eq_zero (le_refl 1) hpv
        have hcw : check_winner c ≠ none := nextMoves_nil_iff.mp hcterm
        rcases hcwe : check_winner c with _ | w
        · exact absurd hcwe hcw
        · rw [hcwe] at hw0
          simp only [Option.getD_some] at hw0
          rw [hw0]
      · intro hcne
        have hsne : whos_turn s ≠ EMPTY := by
          rcases List.exists_mem_of_ne_nil _ htm with ⟨c0, hc0m⟩
          rcases nextMoves_child hc0m with ⟨-, i, hlt, hz, -⟩
          exact whos_turn_ne_zero hlen (numEmpty_pos_of_empty_cell hlt hz)
        have hpXO : whos_turn s = X ∨ whos_turn s = O := by
          rcases whos_turn_values s with h | h | h
          · exact Or.inl h
          · exact absurd h hsne
          · exact Or.inr h
        have hcnem : numEmpty c ≠ 0 := by
          rcases List.exists_mem_of_ne_nil _ hcne with ⟨c1, hc1m⟩
          rcases nextMoves_child hc1m with ⟨-, i, hlt, hz, -⟩
          have := numEmpty_pos_of_empty_cell hlt hz
          rw [hclen] at hlt
          omega
        have hwc : whos_turn c = -whos_turn s :=
          whos_turn_child_flip hlen hcn hcnem
        have hfb : numEmpty c < 9 := by omega
        have hshift := plainValue_shift (whos_turn s) 9 c false 0 hclen hfb
          (Or.inr hcne)
        have hz0 : plainValue (whos_turn s) 9 c false 0 = 0 := by
          apply shiftQ_eq_zero
          rw [← hshift]
          exact hc0
        have hz1 : plainValue (-whos_turn s) 9 c true 0 = 0 := by
          have hd := plainValue_dual 9 c false 0 (whos_turn s) hcvalid hpXO
          rw [hz0] at hd
          have h2 : plainValue (-whos_turn s) 9 c (!false) 0 = 0 :=
            neg_eq_zero.mp hd.symm
          exact h2
        rw [hwc]
        exact (plainValue_fuel_congr (-whos_turn s) 10 9 c true 0 hclen
          (by omega) hfb).trans hz1

/-- Claim C3: for every realization of the randomized move ordering,
letting `minimax` pick the move for both sides starting from the all-empty
board until the state is terminal always ends in a state whose
`check_winner` outcome is the draw marker — never a win for either
player. -/
theorem claim_C3_selfplay_draw (T : ℕ → ℕ → Bool) :
    check_winner (selfPlay T 9 emptyBoard) = some EMPTY := by
  refine selfPlay_draw_aux 9 T emptyBoard (by decide) ?_ (by decide) ?_ ?_
  · intro x hx
    have hx0 := List.eq_of_mem_replicate hx
    rw [hx0]
    exact Or.inr (Or.inl rfl)
  · intro h
    exact absurd h (by decide)
  · intro h
    have hwt : whos_turn emptyBoard = X := by decide
    rw [hwt]
    exact emptyBoard_plain_zero

end TTT
